import Mathlib

/-!
Verification of the flash-attention-prebuild-wheels table-generation scripts.

Text is modelled as `List Char`; every operation on it is defined from the
Python source (`generate_packages_table.py`, `insert_history.py`).  Python
`str.strip` is modelled over ASCII whitespace, `re` patterns are modelled by
the explicit scanning functions below, and `pandas` sorts (quicksort, whose
tie order among equal keys is unspecified) are modelled as stable sorts by
the same compound keys.
-/

namespace FAW

/-- Character-list form of a string literal. -/
def cs (s : String) : List Char := s.data

/-- Python str.split with a single-character separator. -/
def splitC (sep : Char) : List Char → List (List Char)
  | [] => [[]]
  | c :: rest =>
    if c = sep then [] :: splitC sep rest
    else
      match splitC sep rest with
      | [] => [[c]]
      | h :: t => (c :: h) :: t

/-- Python str.strip over ASCII whitespace. -/
def trimC (s : List Char) : List Char :=
  ((s.dropWhile Char.isWhitespace).reverse.dropWhile Char.isWhitespace).reverse

/-- Python str.lower, characterwise. -/
def lowerC (s : List Char) : List Char := s.map Char.toLower

/-- Python sep.join(pieces). -/
def joinSep (sep : List Char) : List (List Char) → List Char
  | [] => []
  | [x] => x
  | x :: y :: xs => x ++ sep ++ joinSep sep (y :: xs)

/-- Leftmost-occurrence split, like Python str.find: returns the text before the
first occurrence of pat together with the whole suffix starting at that
occurrence. -/
def splitBefore (pat : List Char) : List Char → Option (List Char × List Char)
  | [] => if pat.isPrefixOf ([] : List Char) then some ([], []) else none
  | c :: rest =>
    if pat.isPrefixOf (c :: rest) then some ([], c :: rest)
    else (splitBefore pat rest).map (fun p => (c :: p.1, p.2))

/-- Python substring containment (the `in` operator). -/
def hasOcc (pat s : List Char) : Bool := (splitBefore pat s).isSome

/-- Maximal digit runs of a string, as numbers; acc carries the run in progress.
Models re.findall of a digit run followed by int conversion. -/
def digitRunsAux : Option Nat → List Char → List Nat
  | acc, [] => (match acc with | some n => [n] | none => [])
  | acc, c :: rest =>
    if c.isDigit then digitRunsAux (some ((acc.getD 0) * 10 + (c.toNat - 48))) rest
    else
      match acc with
      | some n => n :: digitRunsAux none rest
      | none => digitRunsAux none rest

/-- parse_numeric_version from generate_packages_table.py. -/
def parseNumericVersion (s : List Char) : List Nat := digitRunsAux none s

/-- The elementwise-negated numeric version key used for descending sorts. -/
def negKey (s : List Char) : List Int := (parseNumericVersion s).map (fun n => -(n : Int))

/-- One parsed package record (one dict appended by extract_packages_from_history). -/
structure Pkg where
  fa : List Char
  py : List Char
  pt : List Char
  cu : List Char
  os : List Char
  package : Option (List Char)
deriving DecidableEq, Repr

/-- Python str.splitlines for newline-separated text: no trailing empty piece. -/
def pyLines (s : List Char) : List (List Char) :=
  let ls := splitC '\n' s
  if ls.getLast? = some [] then ls.dropLast else ls

/-- Heading test: line.strip().startswith("## ") and "History" in line. -/
def isHistoryHeading (line : List Char) : Bool :=
  (cs "## ").isPrefixOf (trimC line) && hasOcc (cs "History") line

/-- Drop lines up to the first History heading, keeping that heading line. -/
def dropToHistory : List (List Char) → Option (List (List Char))
  | [] => none
  | l :: rest => if isHistoryHeading l then some (l :: rest) else dropToHistory rest

/-- Characters before the first closing parenthesis, if any. -/
def takeToParen : List Char → Option (List Char)
  | [] => none
  | c :: rest => if c = ')' then some [] else (takeToParen rest).map (c :: ·)

/-- Model of re.search for the Release-link pattern: the first position where
the literal "[Release](" is followed by a nonempty run of characters other
than a closing parenthesis, then a closing parenthesis. -/
def findRelease : List Char → Option (List Char)
  | [] => none
  | c :: rest =>
    if (cs "[Release](").isPrefixOf (c :: rest) then
      match takeToParen ((c :: rest).drop 10) with
      | some url => if url = [] then findRelease rest else some url
      | none => findRelease rest
    else findRelease rest

/-- Non-empty stripped cells of a table row. -/
def cellsOf (row : List Char) : List (List Char) :=
  ((splitC '|' row).map trimC).filter (· ≠ [])

/-- Non-empty stripped comma-separated tokens of a cell. -/
def toksOf (cell : List Char) : List (List Char) :=
  ((splitC ',' cell).map trimC).filter (· ≠ [])

/-- itertools.product of the four version lists, stamped with OS and link. -/
def combos (fas pys pts cus : List (List Char)) (os : List Char)
    (url : Option (List Char)) : List Pkg :=
  fas.flatMap fun fa => pys.flatMap fun py => pts.flatMap fun pt =>
    cus.map fun cu => ⟨fa, py, pt, cu, os, url⟩

/-- Records emitted for one (already stripped) table row line. -/
def emitRow (row : List Char) (os : List Char) (url : Option (List Char)) : List Pkg :=
  let cells := cellsOf row
  if 4 ≤ cells.length then
    combos (toksOf (cells.getD 0 [])) (toksOf (cells.getD 1 []))
      (toksOf (cells.getD 2 [])) (toksOf (cells.getD 3 [])) os url
  else []

/-- The inner row loop of extract_packages_from_history: consumes lines while
they still start with a pipe, returning records and the remaining lines. -/
def processTable (os : List Char) (url : Option (List Char)) :
    List (List Char) → List Pkg × List (List Char)
  | [] => ([], [])
  | l :: rest =>
    let row := trimC l
    if (cs "|").isPrefixOf row then
      let out := processTable os url rest
      (emitRow row os url ++ out.1, out.2)
    else ([], l :: rest)

/-- The default OS context. -/
def defaultOs : List Char := cs "Linux x86_64"

/-- Table trigger test of the outer loop. -/
def isTableHeader (line : List Char) : Bool :=
  (cs "| Flash-Attention").isPrefixOf line || (cs "|Flash-Attention").isPrefixOf line

/-- The outer line dispatcher of extract_packages_from_history.  fuel bounds the
iteration count; length + 1 is always enough since every step consumes at
least one line. -/
def scanLines : Nat → List (List Char) → Option (List Char) → List Char → List Pkg
  | 0, _, _, _ => []
  | _ + 1, [], _, _ => []
  | fuel + 1, l :: rest, url, os =>
    let line := trimC l
    if (cs "### ").isPrefixOf line then
      scanLines fuel rest none defaultOs
    else if hasOcc (cs "[Release](") line then
      scanLines fuel rest (findRelease line <|> url) os
    else if (cs "#### ").isPrefixOf line then
      let o := trimC (line.drop 5)
      scanLines fuel rest url (if o = [] then defaultOs else o)
    else if isTableHeader line then
      let out := processTable os url (rest.drop 1)
      out.1 ++ scanLines fuel out.2 url os
    else scanLines fuel rest url os

/-- extract_packages_from_history from generate_packages_table.py. -/
def extractPackagesFromHistory (text : List Char) : List Pkg :=
  match dropToHistory (pyLines text) with
  | none => []
  | some ls => scanLines (ls.length + 1) ls none defaultOs

/-- Tag capture of the regex search for "/tag/([^/]+)$" on a url. -/
def tagOf (url : List Char) : Option (List Char) :=
  match (splitC '/' url).reverse with
  | t :: seg :: _ :: _ => if seg = cs "tag" ∧ t ≠ [] then some t else none
  | _ => none

/-- package_sort_key from sort_packages. -/
def pkgSortKey : Option (List Char) → Lex (Nat × List Int)
  | none => toLex (1, [])
  | some url =>
    if url = [] then toLex (1, [])
    else
      match tagOf url with
      | none => toLex (1, [])
      | some tag => toLex (0, negKey tag)

/-- The compound sort key of sort_packages, column priority Flash-Attention,
OS, Python, PyTorch, CUDA, package; descending fields carry negated keys. -/
def rowKey (p : Pkg) :
    Lex (List Int × Lex (List Char × Lex (List Int ×
      Lex (List Int × Lex (List Int × Lex (Nat × List Int)))))) :=
  toLex (negKey p.fa, toLex (lowerC p.os, toLex (negKey p.py,
    toLex (negKey p.pt, toLex (negKey p.cu, pkgSortKey p.package)))))

/-- sort_packages: pandas sort_values on the six key columns, modelled as a
stable sort by the compound key. -/
def sortPackages (l : List Pkg) : List Pkg :=
  l.insertionSort (fun a b => rowKey a ≤ rowKey b)

/-- The 5-field identity key of merge_duplicate_rows. -/
def key5 (p : Pkg) : List Char × List Char × List Char × List Char × List Char :=
  (p.fa, p.py, p.pt, p.cu, p.os)

/-- Lexicographic form of an identity key (pandas groupby sorts group keys as
Python tuples). -/
def lexKey5 (k : List Char × List Char × List Char × List Char × List Char) :
    Lex (List Char × Lex (List Char × Lex (List Char × Lex (List Char × List Char)))) :=
  toLex (k.1, toLex (k.2.1, toLex (k.2.2.1, toLex (k.2.2.2.1, k.2.2.2.2))))

/-- pandas unique: first occurrences, in order. -/
def pdUniqueAux {α : Type} [DecidableEq α] (seen : List α) : List α → List α
  | [] => []
  | x :: xs => if x ∈ seen then pdUniqueAux seen xs else x :: pdUniqueAux (x :: seen) xs

/-- pandas unique: first occurrences, in order. -/
def pdUnique {α : Type} [DecidableEq α] (l : List α) : List α := pdUniqueAux [] l

/-- One merged catalog entry produced by merge_duplicate_rows. -/
structure Entry where
  fa : List Char
  py : List Char
  pt : List Char
  cu : List Char
  os : List Char
  package : List (Option (List Char))
deriving DecidableEq, Repr

/-- combine_packages on the ordered package column of one group: unique non-null
links, then drop empties; a singleton null list when nothing remains. -/
def combinePackages (links : List (Option (List Char))) : List (Option (List Char)) :=
  let pkgs := (pdUnique (links.filterMap id)).filter (· ≠ [])
  if pkgs = [] then [none] else pkgs.map some

/-- The rows of one identity-key group, in input order. -/
def groupOf (l : List Pkg)
    (k : List Char × List Char × List Char × List Char × List Char) : List Pkg :=
  l.filter (fun p => key5 p = k)

/-- merge_duplicate_rows: one entry per distinct identity key; pandas groupby
iterates groups in sorted key order and keeps row order inside a group. -/
def mergeDuplicateRows (l : List Pkg) : List Entry :=
  let keys := (pdUnique (l.map key5)).insertionSort (fun a b => lexKey5 a ≤ lexKey5 b)
  keys.map fun k =>
    ⟨k.1, k.2.1, k.2.2.1, k.2.2.2.1, k.2.2.2.2,
      combinePackages ((groupOf l k).map (·.package))⟩

/-- Identity key of a merged entry. -/
def ekey (e : Entry) : List Char × List Char × List Char × List Char × List Char :=
  (e.fa, e.py, e.pt, e.cu, e.os)

/-- Decimal digits of a number, for the ReleaseN labels. -/
def numChars (n : Nat) : List Char := (Nat.repr n).data

/-- Truthiness of a package column value: a non-null, non-empty link. -/
def truthy : Option (List Char) → Bool
  | some s => decide (s ≠ [])
  | none => false

/-- The numbered markdown links of a package list; the label number comes from
enumerate over the whole list, skipped values included. -/
def releaseLinks (packages : List (Option (List Char))) : List (List Char) :=
  (packages.enumFrom 1).filterMap fun ip =>
    match ip.2 with
    | some s => if s = [] then none else
        some (cs "[Release" ++ numChars ip.1 ++ cs "](" ++ s ++ cs ")")
    | none => none

/-- Package-cell text in generate_markdown_table_by_os (list case; the merge
step always stores a list, so the scalar fallback branch is unreachable). -/
def renderCellByOs (packages : List (Option (List Char))) : List Char :=
  if packages ≠ [] ∧ packages.any truthy then joinSep (cs ", ") (releaseLinks packages)
  else cs "-"

/-- Package-cell text in generate_markdown_table (same list-case code). -/
def renderCellFlat (packages : List (Option (List Char))) : List Char :=
  if packages ≠ [] ∧ packages.any truthy then joinSep (cs ", ") (releaseLinks packages)
  else cs "-"

/-- Renderer re-sort key over Flash-Attention, Python, PyTorch, CUDA. -/
def key4 (e : Entry) : Lex (List Int × Lex (List Int × Lex (List Int × List Int))) :=
  toLex (negKey e.fa, toLex (negKey e.py, toLex (negKey e.pt, negKey e.cu)))

/-- Renderer re-sort key over Python, PyTorch, CUDA inside one section. -/
def key3 (e : Entry) : Lex (List Int × Lex (List Int × List Int)) :=
  toLex (negKey e.py, toLex (negKey e.pt, negKey e.cu))

/-- Sort of one OS group by Flash-Attention, Python, PyTorch, CUDA. -/
def sortEntries4 (l : List Entry) : List Entry :=
  l.insertionSort (fun a b => key4 a ≤ key4 b)

/-- Sort of one Flash-Attention section by Python, PyTorch, CUDA. -/
def sortEntries3 (l : List Entry) : List Entry :=
  l.insertionSort (fun a b => key3 a ≤ key3 b)

/-- The ordered rows of one OS/Flash-Attention section of the hierarchical
renderer. -/
def sectionRows (entries : List Entry) (osName fa : List Char) : List Entry :=
  sortEntries3 ((sortEntries4 (entries.filter (fun e => e.os = osName))).filter
    (fun e => e.fa = fa))

/-- One table row line of the hierarchical renderer. -/
def rowLineByOs (e : Entry) : List Char :=
  cs "| " ++ e.py ++ cs " | " ++ e.pt ++ cs " | " ++ e.cu ++ cs " | " ++
    renderCellByOs e.package ++ cs " |"

/-- Header plus data lines of one section table. -/
def tableLinesByOs (rows : List Entry) : List (List Char) :=
  cs "| Python | PyTorch | CUDA | package |" ::
    cs "| ------ | ------- | ---- | ------- |" :: rows.map rowLineByOs

/-- The collapsible block for one Flash-Attention version. -/
def faSection (rows : List Entry) (fa : List Char) : List (List Char) :=
  [cs "#### Flash-Attention " ++ fa, [],
   cs "<details>",
   cs "<summary>Packages for Flash-Attention " ++ fa ++ cs "</summary>",
   [],
   joinSep (cs "\n") (tableLinesByOs rows),
   [],
   cs "</details>",
   []]

/-- The lines of one OS section of the hierarchical renderer. -/
def osSection (entries : List Entry) (osName : List Char) : List (List Char) :=
  let osSorted := sortEntries4 (entries.filter (fun e => e.os = osName))
  let faList := pdUnique (osSorted.map (·.fa))
  (cs "### " ++ osName) :: [] ::
    (faList.flatMap fun fa => faSection (sectionRows entries osName fa) fa)

/-- The distinct OS names, sorted ascending. -/
def osNamesSorted (entries : List Entry) : List (List Char) :=
  (pdUnique (entries.map (·.os))).insertionSort (fun a b => a ≤ b)

/-- generate_markdown_table_by_os. -/
def generateMarkdownTableByOs (entries : List Entry) : List Char :=
  if entries = [] then []
  else joinSep (cs "\n") ((osNamesSorted entries).flatMap (osSection entries))

/-- One row of the flat legacy renderer. -/
def rowLineFlat (e : Entry) : List Char :=
  cs "| " ++ e.fa ++ cs " | " ++ e.py ++ cs " | " ++ e.pt ++ cs " | " ++ e.cu ++
    cs " | " ++ e.os ++ cs " | " ++ renderCellFlat e.package ++ cs " |"

/-- generate_markdown_table, the flat legacy renderer. -/
def generateMarkdownTable (entries : List Entry) : List Char :=
  joinSep (cs "\n")
    (cs "| Flash-Attention | Python | PyTorch | CUDA | OS | package |" ::
      cs "| --------------- | ------ | ------- | ------ | ---- | ------- |" ::
      entries.map rowLineFlat)

/-- update_readme_packages_section: the new document text, or the message of the
raised RuntimeError. -/
def updateReadmePackagesSection (content md : List Char) :
    Except (List Char) (List Char) :=
  match splitBefore (cs "## Packages") content with
  | none => .error (cs "Failed to update README.md: Packages section not found in README.md")
  | some (pre, rest) =>
    let newTail :=
      match splitBefore (cs "## History") rest with
      | some (_, tailH) => tailH
      | none =>
        match splitBefore (cs "\n## ") (rest.drop 11) with
        | some (_, tail2) => tail2
        | none => []
    .ok (pre ++ cs "## Packages\n\n" ++ md ++ cs "\n\n" ++ newTail)

/-- The catalog markdown produced by one pipeline run, when any package parsed. -/
def pipelineMd (doc : List Char) : Option (List Char) :=
  let pkgs := extractPackagesFromHistory doc
  if pkgs = [] then none
  else some (generateMarkdownTableByOs (mergeDuplicateRows (sortPackages pkgs)))

/-- Observable outcome of one run of main. -/
structure MainOut where
  stdout : List (List Char)
  stderr : List (List Char)
  written : Option (List Char)
  exitCode : Nat
deriving DecidableEq, Repr

/-- main of generate_packages_table.py on an in-memory document; written is the
content written back, if any.  The try/except around the body prints the
error and returns, so the interpreter exit status is always 0. -/
def runMain (doc : List Char) (updateReadme : Bool) : MainOut :=
  match pipelineMd doc with
  | none => ⟨[], [cs "No packages found in History section"], none, 0⟩
  | some md =>
    if updateReadme then
      match updateReadmePackagesSection doc md with
      | .ok newContent =>
        ⟨[cs "Updated Packages section in README.md"], [], some newContent, 0⟩
      | .error e => ⟨[], [cs "Error: " ++ e], none, 0⟩
    else ⟨[md], [], none, 0⟩

/-! ### Helper lemmas on lists -/

theorem flatMap_length_const {α β : Type} (f : α → List β) (l : List α) (k : Nat)
    (h : ∀ a ∈ l, (f a).length = k) : (l.flatMap f).length = l.length * k := by
  induction l with
  | nil => simp
  | cons x xs ih =>
    simp only [List.flatMap_cons, List.length_append, List.length_cons]
    rw [h x (by simp), ih (fun a ha => h a (by simp [ha])), Nat.succ_mul, Nat.add_comm]

theorem combos_length (fas pys pts cus : List (List Char)) (os : List Char)
    (url : Option (List Char)) :
    (combos fas pys pts cus os url).length =
      fas.length * pys.length * pts.length * cus.length := by
  unfold combos
  rw [flatMap_length_const _ _ (pys.length * (pts.length * cus.length))]
  · ring
  intro fa _
  rw [flatMap_length_const _ _ (pts.length * cus.length)]
  intro py _
  rw [flatMap_length_const _ _ cus.length]
  intro pt _
  exact List.length_map _ _

theorem mem_combos {p : Pkg} {fas pys pts cus : List (List Char)} {os : List Char}
    {url : Option (List Char)} :
    p ∈ combos fas pys pts cus os url ↔
      p.fa ∈ fas ∧ p.py ∈ pys ∧ p.pt ∈ pts ∧ p.cu ∈ cus ∧ p.os = os ∧ p.package = url := by
  unfold combos
  simp only [List.mem_flatMap, List.mem_map]
  constructor
  · rintro ⟨fa, hfa, py, hpy, pt, hpt, cu, hcu, rfl⟩
    exact ⟨hfa, hpy, hpt, hcu, rfl, rfl⟩
  · rintro ⟨hfa, hpy, hpt, hcu, hos, hurl⟩
    refine ⟨p.fa, hfa, p.py, hpy, p.pt, hpt, p.cu, hcu, ?_⟩
    cases p
    simp_all

theorem toksOf_ne_nil {c t : List Char} (h : t ∈ toksOf c) : t ≠ [] := by
  unfold toksOf at h
  simpa using (List.of_mem_filter h)

theorem cellsOf_ne_nil {row c : List Char} (h : c ∈ cellsOf row) : c ≠ [] := by
  unfold cellsOf at h
  simpa using (List.of_mem_filter h)

/-! ### C3: cross-product expansion of a table row -/

/-- C3: a data-table row with at least four non-empty cells emits exactly the
4-way cross product of its comma-separated token lists, so the record count is
the product of the four token counts, and every record is stamped with the
active OS context and the current release link. -/
theorem claim3_cross_product (row os : List Char) (url : Option (List Char))
    (h : 4 ≤ (cellsOf row).length) :
    (emitRow row os url).length =
      (toksOf ((cellsOf row).getD 0 [])).length *
      (toksOf ((cellsOf row).getD 1 [])).length *
      (toksOf ((cellsOf row).getD 2 [])).length *
      (toksOf ((cellsOf row).getD 3 [])).length ∧
    (∀ p ∈ emitRow row os url,
       p.os = os ∧ p.package = url ∧
       p.fa ∈ toksOf ((cellsOf row).getD 0 []) ∧
       p.py ∈ toksOf ((cellsOf row).getD 1 []) ∧
       p.pt ∈ toksOf ((cellsOf row).getD 2 []) ∧
       p.cu ∈ toksOf ((cellsOf row).getD 3 [])) := by
  unfold emitRow
  rw [if_pos h]
  refine ⟨combos_length _ _ _ _ _ _, fun p hp => ?_⟩
  rw [mem_combos] at hp
  tauto

/-- Concrete witness row for C3. -/
def rowW : List Char := cs "| 2.7.4, 2.7.3 | 3.11, 3.12 | 2.6 | 124 |"

theorem claim3_witness :
    (emitRow rowW (cs "Linux x86_64") (some (cs "http://x/tag/v1"))).length
      = 2 * 2 * 1 * 1 := by
  have h := claim3_cross_product rowW (cs "Linux x86_64") (some (cs "http://x/tag/v1"))
    (by decide)
  rw [h.1]
  decide

/-! ### C9: short rows are skipped -/

theorem processTable_fields (os : List Char) (url : Option (List Char)) :
    ∀ (ls : List (List Char)) (p : Pkg), p ∈ (processTable os url ls).1 →
      p.fa ≠ [] ∧ p.py ≠ [] ∧ p.pt ≠ [] ∧ p.cu ≠ []
  | [], p, hp => by simp [processTable] at hp
  | l :: rest, p, hp => by
    rw [processTable] at hp
    by_cases hpipe : (cs "|").isPrefixOf (trimC l) = true
    · simp only [hpipe, if_pos] at hp
      rcases List.mem_append.mp hp with hL | hR
      · unfold emitRow at hL
        by_cases h4 : 4 ≤ (cellsOf (trimC l)).length
        · rw [if_pos h4] at hL
          rw [mem_combos] at hL
          exact ⟨toksOf_ne_nil hL.1, toksOf_ne_nil hL.2.1, toksOf_ne_nil hL.2.2.1,
            toksOf_ne_nil hL.2.2.2.1⟩
        · rw [if_neg h4] at hL
          simp at hL
      · exact processTable_fields os url rest p hR
    · simp only [hpipe] at hp
      simp at hp

/-- C9: a table row whose pipe split leaves fewer than four non-empty stripped
cells emits no records while processing continues with the following rows;
empty cells are dropped before counting, and every record any row emits has
non-empty version fields. -/
theorem claim9_short_rows (l : List Char) (ls : List (List Char)) (os : List Char)
    (url : Option (List Char)) (h1 : (cs "|").isPrefixOf (trimC l) = true)
    (h2 : (cellsOf (trimC l)).length < 4) :
    processTable os url (l :: ls) = processTable os url ls ∧
    (∀ c ∈ cellsOf (trimC l), c ≠ []) ∧
    (∀ p ∈ (processTable os url (l :: ls)).1,
       p.fa ≠ [] ∧ p.py ≠ [] ∧ p.pt ≠ [] ∧ p.cu ≠ []) := by
  refine ⟨?_, fun c hc => cellsOf_ne_nil hc, fun p hp => processTable_fields os url _ p hp⟩
  rw [processTable]
  simp only [h1, if_pos]
  rw [emitRow, if_neg (by omega)]
  simp

theorem claim9_witness :
    processTable (cs "L") none [cs "| a | b |", cs "| 1.0 | 3.9 | 2.4 | 12.4 |"]
      = processTable (cs "L") none [cs "| 1.0 | 3.9 | 2.4 | 12.4 |"] := by
  have h := claim9_short_rows (cs "| a | b |") [cs "| 1.0 | 3.9 | 2.4 | 12.4 |"]
    (cs "L") none (by decide) (by decide)
  exact h.1

/-! ### C8: empty input is distinguishable and writes nothing -/

theorem dropToHistory_eq_none (ls : List (List Char))
    (h : ∀ l ∈ ls, isHistoryHeading l = false) : dropToHistory ls = none := by
  induction ls with
  | nil => rfl
  | cons l rest ih =>
    rw [dropToHistory, h l (by simp), if_neg (by simp)]
    exact ih (fun x hx => h x (by simp [hx]))

theorem scanLines_no_table :
    ∀ (fuel : Nat) (ls : List (List Char)) (url : Option (List Char)) (os : List Char),
      (∀ l ∈ ls, isTableHeader (trimC l) = false) → scanLines fuel ls url os = []
  | 0, _, _, _, _ => rfl
  | _ + 1, [], _, _, _ => rfl
  | fuel + 1, l :: rest, url, os, h => by
    have hl : isTableHeader (trimC l) = false := h l (by simp)
    have hr : ∀ x ∈ rest, isTableHeader (trimC x) = false := fun x hx => h x (by simp [hx])
    rw [scanLines]
    simp only [hl]
    split_ifs with hA hB hC hD hE
    · exact scanLines_no_table fuel rest none defaultOs hr
    · exact scanLines_no_table fuel rest _ os hr
    · exact scanLines_no_table fuel rest url _ hr
    · exact scanLines_no_table fuel rest url _ hr
    · exact hE.elim
    · exact scanLines_no_table fuel rest url os hr

/-- C8: a document with no History-like heading, or with no data-table trigger
line after it, yields no records; and any run that parsed no records reports
the nothing-to-do message on stderr only, writes nothing, prints nothing to
stdout, and exits with status 0, distinguishable from the success outputs. -/
theorem claim8_empty_input (doc : List Char) (u : Bool) :
    ((∀ l ∈ pyLines doc, isHistoryHeading l = false) →
      extractPackagesFromHistory doc = []) ∧
    (∀ ls, dropToHistory (pyLines doc) = some ls →
      (∀ l ∈ ls, isTableHeader (trimC l) = false) →
      extractPackagesFromHistory doc = []) ∧
    (extractPackagesFromHistory doc = [] →
      runMain doc u = ⟨[], [cs "No packages found in History section"], none, 0⟩) := by
  refine ⟨fun h => ?_, fun ls hls h => ?_, fun h => ?_⟩
  · rw [extractPackagesFromHistory, dropToHistory_eq_none _ h]
  · rw [extractPackagesFromHistory, hls]
    exact scanLines_no_table _ ls none defaultOs h
  · rw [runMain, pipelineMd]
    simp [h]

theorem claim8_witness :
    extractPackagesFromHistory (cs "# readme\n\nnothing here\n") = [] ∧
    runMain (cs "# readme\n\nnothing here\n") true
      = ⟨[], [cs "No packages found in History section"], none, 0⟩ := by
  have h := claim8_empty_input (cs "# readme\n\nnothing here\n") true
  have h1 := h.1 (by decide)
  exact ⟨h1, h.2.2 h1⟩

/-! ### C7: package-cell rendering -/

/-- The package cell as the specification words it: a dash for an entry with no
links, otherwise comma-joined numbered links in stored order. -/
def claimedPackageCell (links : List (List Char)) : List Char :=
  if links = [] then cs "-"
  else joinSep (cs ", ") ((links.enumFrom 1).map fun ip =>
    cs "[Release" ++ numChars ip.1 ++ cs "](" ++ ip.2 ++ cs ")")

theorem releaseLinks_enumFrom (pkgs : List (Option (List Char)))
    (h : ∀ p ∈ pkgs, ∃ s, p = some s ∧ s ≠ []) :
    ∀ n, ((pkgs.enumFrom n).filterMap fun ip =>
        match ip.2 with
        | some s => if s = [] then none else
            some (cs "[Release" ++ numChars ip.1 ++ cs "](" ++ s ++ cs ")")
        | none => none) =
      ((pkgs.filterMap id).enumFrom n).map fun ip =>
        cs "[Release" ++ numChars ip.1 ++ cs "](" ++ ip.2 ++ cs ")" := by
  induction pkgs with
  | nil => intro n; rfl
  | cons p rest ih =>
    intro n
    obtain ⟨s, rfl, hs⟩ := h p (by simp)
    have hrest := ih (fun q hq => h q (by simp [hq]))
    simp only [List.enumFrom, List.filterMap_cons, List.filterMap, id]
    rw [if_neg hs]
    simp only [List.enumFrom, List.map_cons]
    rw [hrest (n + 1)]

/-- C7: for an aggregated entry whose stored list is a list of non-empty links
(or the singleton-null list the merge step stores when there are none), both
renderers produce the claimed package cell: a dash when there are zero links,
else comma-joined links labeled Release1, Release2, ... in stored order. -/
theorem claim7_package_cell (pkgs : List (Option (List Char)))
    (h : (∀ p ∈ pkgs, ∃ s, p = some s ∧ s ≠ []) ∨ pkgs = [none]) :
    renderCellByOs pkgs = claimedPackageCell (pkgs.filterMap id) ∧
    renderCellFlat pkgs = claimedPackageCell (pkgs.filterMap id) := by
  have main : renderCellByOs pkgs = claimedPackageCell (pkgs.filterMap id) := by
    rcases h with h | rfl
    · cases pkgs with
      | nil => decide
      | cons p rest =>
        obtain ⟨s, rfl, hs⟩ := h p (by simp)
        rw [renderCellByOs, if_pos ?_]
        · rw [claimedPackageCell, if_neg ?_]
          · rw [releaseLinks]
            rw [releaseLinks_enumFrom _ h 1]
          · simp only [List.filterMap_cons, id]
            simp
        · refine ⟨by simp, ?_⟩
          simp only [List.any_cons, truthy]
          simp [hs]
    · decide
  exact ⟨main, main⟩

theorem claim7_witness :
    renderCellByOs [some (cs "http://a"), some (cs "http://b")]
      = claimedPackageCell [cs "http://a", cs "http://b"] ∧
    renderCellFlat [some (cs "http://a"), some (cs "http://b")]
      = claimedPackageCell [cs "http://a", cs "http://b"] := by
  have h := claim7_package_cell [some (cs "http://a"), some (cs "http://b")]
    (Or.inl (by
      intro p hp
      rcases List.mem_cons.mp hp with rfl | hp
      · exact ⟨cs "http://a", rfl, by decide⟩
      rcases List.mem_cons.mp hp with rfl | hp
      · exact ⟨cs "http://b", rfl, by decide⟩
      · simp at hp))
  simpa using h

/-! ### C2: merge of duplicate rows -/

theorem pdUniqueAux_congr {α : Type} [DecidableEq α] {s1 s2 : List α}
    (h : ∀ a, a ∈ s1 ↔ a ∈ s2) : ∀ l, pdUniqueAux s1 l = pdUniqueAux s2 l
  | [] => rfl
  | x :: xs => by
    rw [pdUniqueAux, pdUniqueAux]
    by_cases hx : x ∈ s1
    · rw [if_pos hx, if_pos ((h x).mp hx)]
      exact pdUniqueAux_congr h xs
    · rw [if_neg hx, if_neg (fun hc => hx ((h x).mpr hc)),
        @pdUniqueAux_congr α _ (x :: s1) (x :: s2) (fun a => by simp [h a]) xs]

theorem mem_pdUniqueAux {α : Type} [DecidableEq α] {a : α} :
    ∀ {seen l : List α}, a ∈ pdUniqueAux seen l ↔ a ∈ l ∧ a ∉ seen
  | seen, [] => by simp [pdUniqueAux]
  | seen, x :: xs => by
    rw [pdUniqueAux]
    by_cases hx : x ∈ seen
    · rw [if_pos hx, mem_pdUniqueAux]
      constructor
      · exact fun ⟨h1, h2⟩ => ⟨by simp [h1], h2⟩
      · rintro ⟨h1, h2⟩
        rcases List.mem_cons.mp h1 with rfl | h1
        · exact absurd hx h2
        · exact ⟨h1, h2⟩
    · rw [if_neg hx]
      simp only [List.mem_cons, mem_pdUniqueAux]
      constructor
      · rintro (rfl | ⟨h1, h2⟩)
        · exact ⟨Or.inl rfl, hx⟩
        · exact ⟨Or.inr h1, fun hc => h2 (by simp [hc])⟩
      · rintro ⟨rfl | h1, h2⟩
        · exact Or.inl rfl
        · by_cases hax : a = x
          · exact Or.inl hax
          · exact Or.inr ⟨h1, by simp [hax, h2]⟩

theorem pdUniqueAux_nodup {α : Type} [DecidableEq α] :
    ∀ (seen l : List α), (pdUniqueAux seen l).Nodup
  | seen, [] => List.nodup_nil
  | seen, x :: xs => by
    rw [pdUniqueAux]
    by_cases hx : x ∈ seen
    · rw [if_pos hx]
      exact pdUniqueAux_nodup seen xs
    · rw [if_neg hx]
      refine List.nodup_cons.mpr ⟨fun hc => ?_, pdUniqueAux_nodup _ xs⟩
      exact (mem_pdUniqueAux.mp hc).2 (by simp)

theorem pdUnique_nodup {α : Type} [DecidableEq α] (l : List α) : (pdUnique l).Nodup :=
  pdUniqueAux_nodup [] l

theorem mem_pdUnique {α : Type} [DecidableEq α] {a : α} {l : List α} :
    a ∈ pdUnique l ↔ a ∈ l := by
  rw [pdUnique, mem_pdUniqueAux]
  simp

theorem pdUniqueAux_cons_notMem {α : Type} [DecidableEq α] {x : α} :
    ∀ {l : List α} (seen : List α), x ∉ l → pdUniqueAux (x :: seen) l = pdUniqueAux seen l
  | [], seen, _ => rfl
  | y :: ys, seen, h => by
    have hyx : y ≠ x := fun hc => h (by simp [hc])
    have hys : x ∉ ys := fun hc => h (by simp [hc])
    rw [pdUniqueAux, pdUniqueAux]
    by_cases hy : y ∈ seen
    · rw [if_pos (by simp [hy]), if_pos hy]
      exact pdUniqueAux_cons_notMem seen hys
    · rw [if_neg (by simp [hyx, hy]), if_neg hy,
        @pdUniqueAux_congr α _ (y :: x :: seen) (x :: y :: seen)
          (fun a => by constructor <;> (intro hh; simp at hh ⊢; tauto)) ys,
        pdUniqueAux_cons_notMem (y :: seen) hys]

theorem pdUniqueAux_filter {α : Type} [DecidableEq α] (p : α → Bool) :
    ∀ (l seen : List α), (pdUniqueAux seen l).filter p = pdUniqueAux seen (l.filter p)
  | [], seen => rfl
  | x :: xs, seen => by
    rw [pdUniqueAux, List.filter_cons]
    by_cases hseen : x ∈ seen
    · rw [if_pos hseen, pdUniqueAux_filter p xs seen]
      cases hp : p x with
      | true =>
        rw [if_pos rfl]
        conv_rhs => rw [pdUniqueAux]
        rw [if_pos hseen]
      | false => rw [if_neg (by simp)]
    · rw [if_neg hseen, List.filter_cons]
      cases hp : p x with
      | true =>
        rw [if_pos rfl, if_pos rfl, pdUniqueAux_filter p xs (x :: seen)]
        conv_rhs => rw [pdUniqueAux]
        rw [if_neg hseen]
      | false =>
        rw [if_neg (by simp), if_neg (by simp),
          pdUniqueAux_filter p xs (x :: seen),
          pdUniqueAux_cons_notMem seen (fun hc => by
            have := List.of_mem_filter hc
            simp [hp] at this)]

/-- The distinct values of a list in first-occurrence order, as the
specification words the de-duplication step. -/
def specFirstOccDistinct {α : Type} [DecidableEq α] (l : List α) : List α :=
  l.foldl (fun acc x => if x ∈ acc then acc else acc ++ [x]) []

theorem specFoldAux {α : Type} [DecidableEq α] :
    ∀ (l acc : List α),
      l.foldl (fun acc x => if x ∈ acc then acc else acc ++ [x]) acc
        = acc ++ pdUniqueAux acc l
  | [], acc => by simp [pdUniqueAux]
  | x :: xs, acc => by
    rw [List.foldl_cons, pdUniqueAux]
    by_cases hx : x ∈ acc
    · rw [if_pos hx, if_pos hx, specFoldAux xs acc]
    · rw [if_neg hx, if_neg hx, specFoldAux xs (acc ++ [x]),
        @pdUniqueAux_congr α _ (acc ++ [x]) (x :: acc) (fun a => by simp [or_comm]) xs]
      simp

theorem pdUnique_eq_spec {α : Type} [DecidableEq α] (l : List α) :
    pdUnique l = specFirstOccDistinct l := by
  rw [specFirstOccDistinct, specFoldAux l [], pdUnique]
  rfl

/-- The ordered non-empty distinct links of one identity group, as the
specification words it: collect the links of the group rows in post-sort
order, drop the missing and empty ones, and keep first occurrences. -/
def specGroupLinks (l : List Pkg)
    (k : List Char × List Char × List Char × List Char × List Char) : List (List Char) :=
  specFirstOccDistinct ((((groupOf l k).map (·.package)).filterMap id).filter (· ≠ []))

theorem ekey_mk (k : List Char × List Char × List Char × List Char × List Char)
    (pkg : List (Option (List Char))) :
    ekey ⟨k.1, k.2.1, k.2.2.1, k.2.2.2.1, k.2.2.2.2, pkg⟩ = k := by
  obtain ⟨a, b, c, d, e⟩ := k
  rfl

theorem mergeDuplicateRows_map_ekey (l : List Pkg) :
    (mergeDuplicateRows l).map ekey
      = (pdUnique (l.map key5)).insertionSort (fun a b => lexKey5 a ≤ lexKey5 b) := by
  rw [mergeDuplicateRows, List.map_map]
  exact List.map_congr_left (fun k _ => ekey_mk k _) |>.trans (List.map_id _)

theorem combinePackages_eq_spec (l : List Pkg)
    (k : List Char × List Char × List Char × List Char × List Char) :
    combinePackages ((groupOf l k).map (·.package))
      = if specGroupLinks l k = [] then [none] else (specGroupLinks l k).map some := by
  rw [combinePackages, specGroupLinks, ← pdUnique_eq_spec]
  rw [pdUnique, pdUnique, ← pdUniqueAux_filter]

/-- C2 (amended): merge_duplicate_rows produces exactly one entry per distinct
identity key, and each entry's link value is the ordered list of the distinct
non-empty links of its group in post-sort first-occurrence order, wrapped in
some, except that a group with no non-empty link is stored as the one-element
list holding the null link, not as the empty list. -/
theorem countP_eq_ite_of_nodup {α : Type} [DecidableEq α] {l : List α} (h : l.Nodup)
    (k : α) : l.countP (fun x => decide (x = k)) = if k ∈ l then 1 else 0 := by
  induction l with
  | nil => simp
  | cons x xs ih =>
    rcases List.nodup_cons.mp h with ⟨hx, hxs⟩
    rw [List.countP_cons, ih hxs]
    by_cases hk : k ∈ xs
    · have hxk : ¬ x = k := fun hc => hx (hc ▸ hk)
      simp [hk, hxk]
    · by_cases hxk : x = k
      · subst hxk
        simp [hk]
      · have hkx : ¬ k = x := fun hc => hxk hc.symm
        simp [hk, hxk, hkx]

theorem claim2_amended (l : List Pkg) :
    ((mergeDuplicateRows l).map ekey).Nodup ∧
    (∀ k, ((mergeDuplicateRows l).map ekey).countP (fun x => decide (x = k))
        = if k ∈ l.map key5 then 1 else 0) ∧
    (∀ e ∈ mergeDuplicateRows l,
      e.package = if specGroupLinks l (ekey e) = [] then [none]
        else (specGroupLinks l (ekey e)).map some) := by
  have hperm : ((mergeDuplicateRows l).map ekey).Perm (pdUnique (l.map key5)) := by
    rw [mergeDuplicateRows_map_ekey]
    exact List.perm_insertionSort _ _
  refine ⟨hperm.nodup_iff.mpr (pdUnique_nodup _), fun k => ?_, fun e he => ?_⟩
  · rw [List.Perm.countP_eq _ hperm, countP_eq_ite_of_nodup (pdUnique_nodup _) k]
    by_cases hk : k ∈ l.map key5
    · rw [if_pos hk, if_pos (mem_pdUnique.mpr hk)]
    · rw [if_neg hk, if_neg (fun hc => hk (mem_pdUnique.mp hc))]
  · rw [mergeDuplicateRows] at he
    obtain ⟨k, _, rfl⟩ := List.mem_map.mp he
    rw [ekey_mk]
    exact combinePackages_eq_spec l k

/-- Concrete packages for the C2 witness and counterexample. -/
def pW1 : Pkg := ⟨cs "1.0", cs "3.10", cs "2.4", cs "12.4", cs "L", some (cs "http://a")⟩

/-- Second record of the C2 witness group, same identity, different link. -/
def pW2 : Pkg := ⟨cs "1.0", cs "3.10", cs "2.4", cs "12.4", cs "L", some (cs "http://b")⟩

theorem claim2_witness :
    ((mergeDuplicateRows [pW1, pW2]).map ekey).countP
      (fun x => decide (x = key5 pW1)) = 1 ∧
    ∀ e ∈ mergeDuplicateRows [pW1, pW2],
      e.package = if specGroupLinks [pW1, pW2] (ekey e) = [] then [none]
        else (specGroupLinks [pW1, pW2] (ekey e)).map some := by
  have h := claim2_amended [pW1, pW2]
  refine ⟨?_, h.2.2⟩
  rw [h.2.1 (key5 pW1)]
  decide

/-- Record with a missing link, for the C2 counterexample. -/
def pC2 : Pkg := ⟨cs "1.0", cs "3.10", cs "2.4", cs "12.4", cs "L", none⟩

theorem claim2_counterexample :
    (mergeDuplicateRows [pC2]).map (·.package) = [[none]] ∧
    (mergeDuplicateRows [pC2]).map (·.package) ≠ [([] : List (Option (List Char)))] := by
  exact ⟨by decide, by decide⟩

/-! ### C1: the compound sort order of sort_packages -/

/-- The plain (non-negated) numeric version key, the VersionKey of the
specification. -/
def verKey (s : List Char) : List Nat := parseNumericVersion s

/-- The link component of the sort key as the claim words it: parseable tags
first, ordered by tag version descending (standard tuple comparison). -/
def claimedPkgKey : Option (List Char) → Lex (Nat × (List Nat)ᵒᵈ)
  | none => toLex (1, OrderDual.toDual [])
  | some url =>
    if url = [] then toLex (1, OrderDual.toDual [])
    else
      match tagOf url with
      | none => toLex (1, OrderDual.toDual [])
      | some tag => toLex (0, OrderDual.toDual (verKey tag))

/-- The compound key exactly as the claim words it: os_name ascending first,
then the four version fields descending by VersionKey (standard tuple
comparison, via the order dual), then the link key. -/
def claimedKeyC1 (p : Pkg) :
    Lex (List Char × Lex ((List Nat)ᵒᵈ × Lex ((List Nat)ᵒᵈ × Lex ((List Nat)ᵒᵈ ×
      Lex ((List Nat)ᵒᵈ × Lex (Nat × (List Nat)ᵒᵈ)))))) :=
  toLex (lowerC p.os, toLex (OrderDual.toDual (verKey p.fa),
    toLex (OrderDual.toDual (verKey p.py), toLex (OrderDual.toDual (verKey p.pt),
      toLex (OrderDual.toDual (verKey p.cu), claimedPkgKey p.package)))))

/-- Record with a newer component version but later OS name. -/
def rC1a : Pkg := ⟨cs "2", cs "3", cs "2", cs "12", cs "b", none⟩

/-- Record with an older component version but earlier OS name. -/
def rC1b : Pkg := ⟨cs "1", cs "3", cs "2", cs "12", cs "a", none⟩

/-- Record whose version key is a proper prefix of that of rC1d. -/
def rC1c : Pkg := ⟨cs "2.7", cs "3", cs "2", cs "12", cs "a", none⟩

/-- Record whose version key properly extends that of rC1c. -/
def rC1d : Pkg := ⟨cs "2.7.3", cs "3", cs "2", cs "12", cs "a", none⟩

theorem claim1_counterexample :
    sortPackages [rC1a, rC1b] = [rC1a, rC1b] ∧
    ¬ List.Pairwise (fun a b => claimedKeyC1 a ≤ claimedKeyC1 b)
        (sortPackages [rC1a, rC1b]) ∧
    sortPackages [rC1d, rC1c] = [rC1c, rC1d] ∧
    ¬ List.Pairwise (fun a b => claimedKeyC1 a ≤ claimedKeyC1 b)
        (sortPackages [rC1d, rC1c]) := by
  refine ⟨by decide, by decide, by decide, by decide⟩

/-- C1 (amended): sort_packages returns a permutation of its input ordered by
the compound key with component_version (descending, via the elementwise
negated key, so a version key that is a proper prefix of another sorts before
it) first, then os_name ascending case-insensitive, then runtime, framework
and toolkit versions descending in the same negated-key sense, then the link
key with parseable release tags first. -/
theorem claim1_amended (l : List Pkg) :
    (sortPackages l).Perm l ∧
    List.Pairwise (fun a b => rowKey a ≤ rowKey b) (sortPackages l) := by
  refine ⟨List.perm_insertionSort _ l, ?_⟩
  haveI : IsTotal Pkg (fun a b => rowKey a ≤ rowKey b) := ⟨fun a b => le_total _ _⟩
  haveI : IsTrans Pkg (fun a b => rowKey a ≤ rowKey b) :=
    ⟨fun _ _ _ hab hbc => le_trans hab hbc⟩
  exact List.sorted_insertionSort _ l

/-! ### C6: row order inside one rendered OS/Flash-Attention section -/

/-- The section-row key exactly as the claim words it: runtime, framework and
toolkit VersionKeys compared by standard tuple order, taken descending via the
order dual. -/
def claimedKeyC6 (e : Entry) : Lex ((List Nat)ᵒᵈ × Lex ((List Nat)ᵒᵈ × (List Nat)ᵒᵈ)) :=
  toLex (OrderDual.toDual (verKey e.py),
    toLex (OrderDual.toDual (verKey e.pt), OrderDual.toDual (verKey e.cu)))

/-- Entry whose runtime version key is a proper prefix of that of eC6b. -/
def eC6a : Entry := ⟨cs "1", cs "3.1", cs "2.4", cs "12.4", cs "L", [none]⟩

/-- Entry whose runtime version key properly extends that of eC6a. -/
def eC6b : Entry := ⟨cs "1", cs "3.1.0", cs "2.4", cs "12.4", cs "L", [none]⟩

theorem claim6_counterexample :
    sectionRows [eC6a, eC6b] (cs "L") (cs "1") = [eC6a, eC6b] ∧
    ¬ List.Pairwise (fun a b => claimedKeyC6 a ≤ claimedKeyC6 b)
        (sectionRows [eC6a, eC6b] (cs "L") (cs "1")) := by
  exact ⟨by decide, by decide⟩

/-- C6 (amended): inside one rendered OS/Flash-Attention section the rows are a
permutation of the matching entries ordered by ascending elementwise-negated
runtime key, ties broken by negated framework then toolkit keys; this equals
runtime-VersionKey non-increasing order except that a version key that is a
proper prefix of another sorts before it. -/
theorem claim6_amended (entries : List Entry) (osName fa : List Char) :
    List.Pairwise (fun a b => key3 a ≤ key3 b) (sectionRows entries osName fa) ∧
    (sectionRows entries osName fa).Perm
      ((entries.filter (fun e => e.os = osName)).filter (fun e => e.fa = fa)) := by
  constructor
  · haveI : IsTotal Entry (fun a b => key3 a ≤ key3 b) := ⟨fun a b => le_total _ _⟩
    haveI : IsTrans Entry (fun a b => key3 a ≤ key3 b) :=
      ⟨fun _ _ _ hab hbc => le_trans hab hbc⟩
    exact List.sorted_insertionSort _ _
  · unfold sectionRows sortEntries3 sortEntries4
    exact (List.perm_insertionSort _ _).trans
      ((List.perm_insertionSort _ _).filter _)

/-! ### C5: a document without a Packages heading -/

/-- Document with parseable history but no "## Packages" occurrence. -/
def docC5a : List Char :=
  cs "## History\n### v1\n[Release](http://x/tag/v1)\n| Flash-Attention | Python | PyTorch | CUDA |\n| --- | --- | --- | --- |\n| 1.0.0 | 3.10 | 2.4 | 12.4 |\n"

/-- Document containing "## Packages" only in the middle of a line, with no
Packages heading line. -/
def docC5b : List Char :=
  cs "see ## Packages here\n## History\n### v1\n[Release](http://x/tag/v1)\n| Flash-Attention | Python | PyTorch | CUDA |\n| --- | --- | --- | --- |\n| 1.0.0 | 3.10 | 2.4 | 12.4 |\n"

set_option maxRecDepth 40000 in
theorem claim5_counterexample :
    (runMain docC5a true).exitCode = 0 ∧
    (runMain docC5a true).stderr
      = [cs "Error: Failed to update README.md: Packages section not found in README.md"] ∧
    (runMain docC5a true).written = none ∧
    (∀ l ∈ pyLines docC5b, ¬ (cs "## Packages").isPrefixOf l = true) ∧
    (runMain docC5b true).written ≠ none := by
  refine ⟨by decide, by decide, by decide, by decide, by decide⟩

/-- C5 (amended): for every document containing no occurrence of the substring
"## Packages", on a run that parsed records in update mode, the splice raises
the fatal Packages-section error, the program writes nothing, reports the
error on stderr, and exits with status 0 because main catches and swallows
the exception. -/
theorem claim5_amended (doc md : List Char)
    (h1 : splitBefore (cs "## Packages") doc = none)
    (h2 : pipelineMd doc = some md) :
    updateReadmePackagesSection doc md
      = .error (cs "Failed to update README.md: Packages section not found in README.md") ∧
    runMain doc true
      = ⟨[], [cs "Error: Failed to update README.md: Packages section not found in README.md"],
          none, 0⟩ := by
  have herr : updateReadmePackagesSection doc md
      = .error (cs "Failed to update README.md: Packages section not found in README.md") := by
    rw [updateReadmePackagesSection, h1]
  refine ⟨herr, ?_⟩
  rw [runMain, h2]
  simp only [herr]
  rw [if_pos trivial]
  decide

/-- The markdown the pipeline renders for docC5a. -/
def mdC5 : List Char :=
  generateMarkdownTableByOs (mergeDuplicateRows (sortPackages
    (extractPackagesFromHistory docC5a)))

set_option maxRecDepth 40000 in
theorem claim5_witness :
    runMain docC5a true
      = ⟨[], [cs "Error: Failed to update README.md: Packages section not found in README.md"],
          none, 0⟩ :=
  (claim5_amended docC5a mdC5 (by decide) (by decide)).2

/-! ### insert_history.py: line units -/

/-- The line units of a text: each line together with its terminating newline;
a final line without a newline is kept bare.  Concatenating the units
restores the text. -/
def toUnits : List Char → List (List Char)
  | [] => []
  | c :: rest =>
    if c = '\n' then ['\n'] :: toUnits rest
    else
      match toUnits rest with
      | [] => [[c]]
      | u :: us => (c :: u) :: us

theorem toUnits_ne_nil : ∀ {s : List Char}, s ≠ [] → toUnits s ≠ []
  | [], h => absurd rfl h
  | c :: rest, _ => by
    rw [toUnits]
    by_cases hc : c = '\n'
    · simp [hc]
    · rw [if_neg hc]
      match toUnits rest with
      | [] => simp
      | u :: us => simp

theorem toUnits_newline_cons (y : List Char) : toUnits ('\n' :: y) = ['\n'] :: toUnits y := by
  rw [toUnits, if_pos rfl]

theorem toUnits_chunk : ∀ (x y : List Char), '\n' ∉ x →
    toUnits (x ++ '\n' :: y) = (x ++ ['\n']) :: toUnits y
  | [], y, _ => by simpa using toUnits_newline_cons y
  | c :: x', y, h => by
    have hc : ¬ c = '\n' := fun hc => h (by simp [hc])
    have hx' : '\n' ∉ x' := fun hm => h (by simp [hm])
    rw [List.cons_append, toUnits, if_neg hc, toUnits_chunk x' y hx']
    simp

theorem toUnits_bare : ∀ (u : List Char), '\n' ∉ u → u ≠ [] → toUnits u = [u]
  | [], _, h => absurd rfl h
  | c :: x', h, _ => by
    have hc : ¬ c = '\n' := fun hc => h (by simp [hc])
    have hx' : '\n' ∉ x' := fun hm => h (by simp [hm])
    rw [toUnits, if_neg hc]
    by_cases hx : x' = []
    · subst hx
      simp [toUnits]
    · rw [toUnits_bare x' hx' hx]

theorem toUnits_append : ∀ (x y : List Char), x.getLast? = some '\n' →
    toUnits (x ++ y) = toUnits x ++ toUnits y
  | [], _, h => by simp at h
  | c :: x', y, h => by
    by_cases hx : x' = []
    · subst hx
      have hc : c = '\n' := by simpa using h
      subst hc
      rw [List.singleton_append, toUnits_newline_cons]
      rfl
    · have h' : x'.getLast? = some '\n' := by
        match x', hx with
        | z :: zs, _ => rwa [List.getLast?_cons_cons] at h
      rw [List.cons_append]
      by_cases hc : c = '\n'
      · subst hc
        rw [toUnits_newline_cons, toUnits_newline_cons, toUnits_append x' y h']
        rfl
      · rw [toUnits, if_neg hc, toUnits_append x' y h']
        have hne := toUnits_ne_nil hx
        match htx : toUnits x' with
        | [] => exact absurd htx hne
        | u :: us =>
          rw [toUnits, if_neg hc, htx]
          simp

/-- A terminated line unit: some newline-free text followed by a newline. -/
def TerminatedUnit (u : List Char) : Prop := ∃ x, u = x ++ ['\n'] ∧ '\n' ∉ x

/-- Well-formed unit lists: all units terminated, except that the final unit
may instead be a non-empty newline-free bare line. -/
def WFUnits : List (List Char) → Prop
  | [] => True
  | [u] => TerminatedUnit u ∨ ('\n' ∉ u ∧ u ≠ [])
  | u :: v :: rest => TerminatedUnit u ∧ WFUnits (v :: rest)

theorem WFUnits_cons_of {u : List Char} {us : List (List Char)}
    (h1 : TerminatedUnit u) (h2 : WFUnits us) : WFUnits (u :: us) := by
  match us with
  | [] => exact Or.inl h1
  | v :: rest => exact ⟨h1, h2⟩

theorem WFUnits_of_cons {u : List Char} {us : List (List Char)}
    (h : WFUnits (u :: us)) : WFUnits us := by
  match us with
  | [] => trivial
  | v :: rest => exact h.2

theorem WFUnits_toUnits : ∀ (s : List Char), WFUnits (toUnits s)
  | [] => trivial
  | c :: rest => by
    rw [toUnits]
    by_cases hc : c = '\n'
    · rw [if_pos hc]
      exact WFUnits_cons_of ⟨[], by simp, by simp⟩ (WFUnits_toUnits rest)
    · rw [if_neg hc]
      have hr := WFUnits_toUnits rest
      match ht : toUnits rest with
      | [] => exact Or.inr ⟨by simp [Ne.symm hc], by simp⟩
      | u :: us =>
        rw [ht] at hr
        match us, hr with
        | [], Or.inl ⟨x, hx, hnx⟩ =>
          exact Or.inl ⟨c :: x, by simp [hx], by simp [hnx, Ne.symm hc]⟩
        | [], Or.inr ⟨hnu, _⟩ =>
          exact Or.inr ⟨by simp [hnu, Ne.symm hc], by simp⟩
        | v :: rest2, ⟨⟨x, hx, hnx⟩, h2⟩ =>
          exact ⟨⟨c :: x, by simp [hx], by simp [hnx, Ne.symm hc]⟩, h2⟩

theorem WFUnits_suffix : ∀ {us vs : List (List Char)}, WFUnits us → vs <:+ us → WFUnits vs := by
  intro us
  induction us with
  | nil => intro vs _ hvs; rw [List.suffix_nil.mp hvs]; trivial
  | cons u rest ih =>
    intro vs h hvs
    rcases List.suffix_cons_iff.mp hvs with rfl | hvs'
    · exact h
    · exact ih (WFUnits_of_cons h) hvs'

theorem toUnits_flatten : ∀ {us : List (List Char)}, WFUnits us → toUnits us.flatten = us
  | [], _ => rfl
  | [u], h => by
    rcases h with ⟨x, rfl, hnx⟩ | ⟨hnu, hne⟩
    · rw [List.flatten_cons, List.flatten_nil, List.append_nil]
      have := toUnits_chunk x [] hnx
      simpa using this
    · rw [List.flatten_cons, List.flatten_nil, List.append_nil]
      exact toUnits_bare u hnu hne
  | u :: v :: rest, h => by
    obtain ⟨⟨x, rfl, hnx⟩, h2⟩ := h
    rw [List.flatten_cons, List.append_assoc, List.singleton_append,
      toUnits_chunk x _ hnx, toUnits_flatten h2]

/-! ### insert_history.py: definitions -/

/-- Python str.rstrip over ASCII whitespace. -/
def trimRight (s : List Char) : List Char :=
  (s.reverse.dropWhile Char.isWhitespace).reverse

/-- build_history_section from insert_history.py. -/
def buildHistorySection (tag repo body : List Char) : List Char :=
  trimRight (joinSep (cs "\n")
    [cs "### " ++ tag, [],
     cs "[Release](" ++ (cs "https://github.com/" ++ repo ++ cs "/releases/tag/" ++ tag)
       ++ cs ")",
     [], trimC body]) ++ cs "\n\n"

/-- Consumption of one matched block body: units up to (not including) the next
unit starting with "### " (the regex lookahead), or everything to the end. -/
def dropBlockU : List (List Char) → List (List Char)
  | [] => []
  | u :: rest => if (cs "### ").isPrefixOf u then u :: rest else dropBlockU rest

/-- remove_existing_section over line units: every unit equal to the terminated
tag heading line starts a removed block.  fuel bounds the iteration count and
the unit count is always enough. -/
def removeUnitsAux (tagUnit : List Char) : Nat → List (List Char) → List (List Char)
  | 0, us => us
  | _ + 1, [] => []
  | fuel + 1, u :: rest =>
    if u = tagUnit then removeUnitsAux tagUnit fuel (dropBlockU rest)
    else u :: removeUnitsAux tagUnit fuel rest

/-- remove_existing_section from insert_history.py. -/
def removeExistingSection (content tag : List Char) : List Char :=
  (removeUnitsAux (cs "### " ++ tag ++ cs "\n") (toUnits content).length
    (toUnits content)).flatten

/-- insert_history_section from insert_history.py: inserts right after the
first occurrence of the marker, or reports the missing-History error. -/
def insertHistorySection (content sect : List Char) : Except (List Char) (List Char) :=
  match splitBefore (cs "## History\n") content with
  | none => .error (cs "History section is missing in README.md")
  | some (a, b) => .ok (a ++ cs "## History\n" ++ cs "\n" ++ sect ++ b.drop 11)

/-- The document produced by one successful insert_history run for a tag (the
no-change path leaves the document equal to this value without rewriting it). -/
def insertHistoryRun (content tag repo body : List Char) : Except (List Char) (List Char) :=
  insertHistorySection (removeExistingSection content tag) (buildHistorySection tag repo body)

/-- A unit that is the tag heading line, terminated or bare at end of text. -/
def isTagLine (tag u : List Char) : Bool :=
  decide (u = cs "### " ++ tag ++ cs "\n") || decide (u = cs "### " ++ tag)

/-- Number of tag heading lines in a document. -/
def tagLineCount (doc tag : List Char) : Nat :=
  (toUnits doc).countP (isTagLine tag)

/-! ### insert_history.py: removal lemmas -/

theorem dropBlockU_suffix : ∀ (us : List (List Char)), dropBlockU us <:+ us
  | [] => List.suffix_rfl
  | u :: rest => by
    rw [dropBlockU]
    by_cases hp : (cs "### ").isPrefixOf u = true
    · rw [if_pos hp]
    · rw [if_neg hp]
      exact (dropBlockU_suffix rest).trans (List.suffix_cons u rest)

theorem removeUnitsAux_mem {tagU : List Char} :
    ∀ {fuel : Nat} {us : List (List Char)} {u : List Char},
      u ∈ removeUnitsAux tagU fuel us → u ∈ us
  | 0, us, u, h => h
  | _ + 1, [], u, h => by simp [removeUnitsAux] at h
  | fuel + 1, v :: rest, u, h => by
    rw [removeUnitsAux] at h
    by_cases hv : v = tagU
    · rw [if_pos hv] at h
      exact List.mem_cons_of_mem v ((dropBlockU_suffix rest).mem (removeUnitsAux_mem h))
    · rw [if_neg hv] at h
      rcases List.mem_cons.mp h with rfl | h'
      · exact List.mem_cons_self u rest
      · exact List.mem_cons_of_mem v (removeUnitsAux_mem h')

theorem removeUnitsAux_no_tag {tagU : List Char} :
    ∀ (fuel : Nat) (us : List (List Char)), us.length ≤ fuel →
      tagU ∉ removeUnitsAux tagU fuel us
  | 0, us, h => by
    rw [List.length_eq_zero.mp (Nat.le_zero.mp h)]
    simp [removeUnitsAux]
  | _ + 1, [], _ => by simp [removeUnitsAux]
  | fuel + 1, v :: rest, h => by
    rw [removeUnitsAux]
    by_cases hv : v = tagU
    · rw [if_pos hv]
      refine removeUnitsAux_no_tag fuel (dropBlockU rest) ?_
      calc (dropBlockU rest).length ≤ rest.length := (dropBlockU_suffix rest).length_le
        _ ≤ fuel := by simpa using Nat.le_of_succ_le_succ h
    · rw [if_neg hv]
      intro hc
      rcases List.mem_cons.mp hc with hc1 | hc2
      · exact hv hc1.symm
      · exact removeUnitsAux_no_tag fuel rest (by simpa using Nat.le_of_succ_le_succ h) hc2

theorem removeUnitsAux_nil {tagU : List Char} :
    ∀ (fuel : Nat), removeUnitsAux tagU fuel [] = []
  | 0 => rfl
  | _ + 1 => rfl

theorem removeUnitsAux_WF {tagU : List Char} :
    ∀ (fuel : Nat) (us : List (List Char)), WFUnits us →
      WFUnits (removeUnitsAux tagU fuel us)
  | 0, us, h => h
  | _ + 1, [], _ => trivial
  | fuel + 1, v :: rest, h => by
    rw [removeUnitsAux]
    by_cases hv : v = tagU
    · rw [if_pos hv]
      exact removeUnitsAux_WF fuel (dropBlockU rest)
        (WFUnits_suffix (WFUnits_of_cons h) (dropBlockU_suffix rest))
    · rw [if_neg hv]
      match rest with
      | [] => rw [removeUnitsAux_nil fuel]; exact h
      | w :: rest2 =>
        exact WFUnits_cons_of h.1 (removeUnitsAux_WF fuel (w :: rest2) h.2)

theorem toUnits_removeExistingSection (content tag : List Char) :
    toUnits (removeExistingSection content tag)
      = removeUnitsAux (cs "### " ++ tag ++ cs "\n") (toUnits content).length
          (toUnits content) :=
  toUnits_flatten (removeUnitsAux_WF _ _ (WFUnits_toUnits content))

theorem splitBefore_sound {pat : List Char} :
    ∀ {s a b : List Char}, splitBefore pat s = some (a, b) →
      s = a ++ b ∧ pat.isPrefixOf b = true
  | [], a, b, h => by
    rw [splitBefore] at h
    by_cases hp : pat.isPrefixOf ([] : List Char) = true
    · rw [if_pos hp] at h
      obtain ⟨rfl, rfl⟩ := Prod.mk.injEq .. ▸ Option.some.inj h
      exact ⟨rfl, hp⟩
    · rw [if_neg hp] at h
      exact absurd h (by simp)
  | c :: rest, a, b, h => by
    rw [splitBefore] at h
    by_cases hp : pat.isPrefixOf (c :: rest) = true
    · rw [if_pos hp] at h
      obtain ⟨rfl, rfl⟩ := Prod.mk.injEq .. ▸ Option.some.inj h
      exact ⟨rfl, hp⟩
    · rw [if_neg hp] at h
      match hsr : splitBefore pat rest with
      | none => rw [hsr] at h; exact absurd h (by simp)
      | some (a1, b1) =>
        rw [hsr] at h
        obtain ⟨rfl, rfl⟩ := Prod.mk.injEq .. ▸ Option.some.inj h
        obtain ⟨hs, hb⟩ := splitBefore_sound hsr
        exact ⟨by rw [List.cons_append, ← hs], hb⟩

/-! ### insert_history.py: shape of the built section -/

theorem dropWhile_head_not (p : Char → Bool) : ∀ (l : List Char),
    l.dropWhile p = [] ∨ ∃ c l2, l.dropWhile p = c :: l2 ∧ p c = false
  | [] => Or.inl rfl
  | c :: rest => by
    rw [List.dropWhile_cons]
    by_cases hp : p c = true
    · rw [if_pos hp]
      exact dropWhile_head_not p rest
    · rw [if_neg hp]
      exact Or.inr ⟨c, rest, rfl, by simpa using hp⟩

theorem trimC_shape (s : List Char) :
    trimC s = [] ∨ ∃ y c, trimC s = y ++ [c] ∧ c.isWhitespace = false := by
  rw [trimC]
  rcases dropWhile_head_not Char.isWhitespace ((s.dropWhile Char.isWhitespace).reverse)
    with h | ⟨c, l2, h, hc⟩
  · rw [h]
    exact Or.inl rfl
  · rw [h]
    exact Or.inr ⟨l2.reverse, c, by rw [List.reverse_cons], hc⟩

theorem trimRight_concat_nonws (y : List Char) (c : Char) (h : c.isWhitespace = false) :
    trimRight (y ++ [c]) = y ++ [c] := by
  rw [trimRight]
  have hrev : (y ++ [c]).reverse = c :: y.reverse := by simp
  rw [hrev, List.dropWhile_cons, if_neg (by simp [h])]
  simp

theorem trimRight_concat_ws (y : List Char) (c : Char) (h : c.isWhitespace = true) :
    trimRight (y ++ [c]) = trimRight y := by
  rw [trimRight, trimRight]
  have hrev : (y ++ [c]).reverse = c :: y.reverse := by simp
  rw [hrev, List.dropWhile_cons, if_pos (by simp [h])]

theorem trimRight_nn (z : List Char) : trimRight (z ++ '\n' :: ['\n']) = trimRight z := by
  have h1 : z ++ '\n' :: ['\n'] = (z ++ ['\n']) ++ ['\n'] := by simp
  rw [h1, trimRight_concat_ws _ _ (by decide), trimRight_concat_ws _ _ (by decide)]

theorem joinSep_five (a b c d e : List Char) :
    joinSep (cs "\n") [a, b, c, d, e]
      = a ++ '\n' :: (b ++ '\n' :: (c ++ '\n' :: (d ++ '\n' :: e))) := by
  have hsep : cs "\n" = ['\n'] := rfl
  simp [joinSep, hsep]

theorem buildHistorySection_shape (tag repo body : List Char) :
    ∃ tail, (tail = [] ∨ tail = trimC body ++ cs "\n\n") ∧
      buildHistorySection tag repo body
        = (cs "### " ++ tag) ++ '\n' :: '\n' ::
            ((cs "[Release](" ++ (cs "https://github.com/" ++ repo ++ cs "/releases/tag/" ++ tag)
               ++ cs ")") ++ '\n' :: '\n' :: tail) := by
  rw [buildHistorySection, joinSep_five]
  rcases trimC_shape body with hC | ⟨y, c, hC, hcw⟩
  · refine ⟨[], Or.inl rfl, ?_⟩
    rw [hC]
    have h1 : (cs "### " ++ tag) ++ '\n' :: (([] : List Char) ++ '\n' ::
        ((cs "[Release](" ++ (cs "https://github.com/" ++ repo ++ cs "/releases/tag/" ++ tag)
          ++ cs ")") ++ '\n' :: (([] : List Char) ++ '\n' :: ([] : List Char))))
        = ((cs "### " ++ tag) ++ '\n' :: '\n' ::
            (cs "[Release](" ++ (cs "https://github.com/" ++ repo ++ cs "/releases/tag/" ++ tag)
              ++ cs ")")) ++ '\n' :: ['\n'] := by simp
    rw [h1, trimRight_nn]
    have hcp : (cs ")" : List Char) = [')'] := rfl
    have h2 : (cs "### " ++ tag) ++ '\n' :: '\n' ::
        (cs "[Release](" ++ (cs "https://github.com/" ++ repo ++ cs "/releases/tag/" ++ tag)
          ++ cs ")")
        = ((cs "### " ++ tag) ++ '\n' :: '\n' ::
            (cs "[Release](" ++ (cs "https://github.com/" ++ repo ++ cs "/releases/tag/" ++ tag)))
          ++ [')'] := by simp [hcp]
    rw [h2, trimRight_concat_nonws _ _ (by decide), ← h2]
    have h3 : cs "\n\n" = '\n' :: ['\n'] := rfl
    rw [h3]
    simp
  · refine ⟨trimC body ++ cs "\n\n", Or.inr rfl, ?_⟩
    rw [hC]
    have h1 : (cs "### " ++ tag) ++ '\n' :: (([] : List Char) ++ '\n' ::
        ((cs "[Release](" ++ (cs "https://github.com/" ++ repo ++ cs "/releases/tag/" ++ tag)
          ++ cs ")") ++ '\n' :: (([] : List Char) ++ '\n' :: (y ++ [c]))))
        = (((cs "### " ++ tag) ++ '\n' :: '\n' ::
            (cs "[Release](" ++ (cs "https://github.com/" ++ repo ++ cs "/releases/tag/" ++ tag)
              ++ cs ")")) ++ '\n' :: '\n' :: y) ++ [c] := by simp
    rw [h1, trimRight_concat_nonws _ _ hcw]
    have h3 : cs "\n\n" = '\n' :: ['\n'] := rfl
    rw [h3]
    simp

/-! ### insert_history.py: tag-line tests -/

theorem isTagLine_newline (tag : List Char) : isTagLine tag ['\n'] = false := by
  have h4 : cs "### " ++ tag ++ cs "\n" = '#' :: ('#' :: '#' :: ' ' :: (tag ++ cs "\n")) := rfl
  have h5 : cs "### " ++ tag = '#' :: ('#' :: '#' :: ' ' :: tag) := rfl
  simp only [isTagLine, Bool.or_eq_false_iff, decide_eq_false_iff_not]
  refine ⟨fun hc => ?_, fun hc => ?_⟩
  · rw [h4] at hc
    injection hc with hc1 hc2
    exact absurd hc1 (by decide)
  · rw [h5] at hc
    injection hc with hc1 hc2
    exact absurd hc1 (by decide)

theorem isTagLine_of_head (tag : List Char) (c0 : Char) (rest : List Char) (h : c0 ≠ '#') :
    isTagLine tag (c0 :: rest) = false := by
  have h4 : cs "### " ++ tag ++ cs "\n" = '#' :: ('#' :: '#' :: ' ' :: (tag ++ cs "\n")) := rfl
  have h5 : cs "### " ++ tag = '#' :: ('#' :: '#' :: ' ' :: tag) := rfl
  simp only [isTagLine, Bool.or_eq_false_iff, decide_eq_false_iff_not]
  refine ⟨fun hc => ?_, fun hc => ?_⟩
  · rw [h4] at hc
    injection hc with hc1 _
    exact h hc1
  · rw [h5] at hc
    injection hc with hc1 _
    exact h hc1

theorem isTagLine_marker (tag : List Char) : isTagLine tag (cs "## History\n") = false := by
  have h4 : cs "### " ++ tag ++ cs "\n" = '#' :: '#' :: '#' :: (' ' :: (tag ++ cs "\n")) := rfl
  have h5 : cs "### " ++ tag = '#' :: '#' :: '#' :: (' ' :: tag) := rfl
  have h6 : cs "## History\n" = '#' :: '#' :: ' ' :: cs "History\n" := rfl
  simp only [isTagLine, Bool.or_eq_false_iff, decide_eq_false_iff_not]
  refine ⟨fun hc => ?_, fun hc => ?_⟩
  · rw [h4, h6] at hc
    injection hc with _ hc
    injection hc with _ hc
    injection hc with hc1 _
    exact absurd hc1 (by decide)
  · rw [h5, h6] at hc
    injection hc with _ hc
    injection hc with _ hc
    injection hc with hc1 _
    exact absurd hc1 (by decide)

theorem isTagLine_tag_unit (tag : List Char) :
    isTagLine tag ((cs "### " ++ tag) ++ ['\n']) = true := by
  simp only [isTagLine, Bool.or_eq_true, decide_eq_true_eq]
  left
  rfl

theorem toUnits_marker (z : List Char) :
    toUnits (cs "## History\n" ++ z) = cs "## History\n" :: toUnits z := by
  have h1 : cs "## History\n" ++ z = cs "## History" ++ '\n' :: z := rfl
  rw [h1, toUnits_chunk _ _ (by decide)]
  rfl

theorem getLast?_concat_ne (x : List Char) (c : Char) :
    (x ++ [c]).getLast? = some c := List.getLast?_concat x

/-! ### C10: uniqueness of the tag section after insert_history -/

/-- Body whose notes contain a line equal to the tag heading itself. -/
def bodyC10 : List Char := cs "### v1\nx"

/-- Content whose final line is an unterminated tag heading. -/
def contentC10 : List Char := cs "## History\nx\n### v1"

theorem claim10_counterexample :
    ((insertHistoryRun (cs "## History\n") (cs "v1") (cs "r") bodyC10).map
      (fun d => tagLineCount d (cs "v1"))).toOption = some 2 ∧
    ((insertHistoryRun contentC10 (cs "v1") (cs "r") (cs "b")).map
      (fun d => tagLineCount d (cs "v1"))).toOption = some 2 ∧
    (2 : Nat) ≠ 1 := by
  refine ⟨by decide, by decide, by decide⟩

/-- C10 (amended): after a successful insert_history run, the document contains
exactly one tag heading line, provided the release tag and repo are single
line, the stripped note body contains no line equal to the tag heading, the
document has no unterminated final line equal to the tag heading, and the
History marker match sits at the start of a line. -/
theorem claim10_amended (content tag repo body d : List Char)
    (htag : '\n' ∉ tag) (hrepo : '\n' ∉ repo)
    (hbody : ∀ u ∈ toUnits (trimC body ++ cs "\n\n"), isTagLine tag u = false)
    (hbare : (cs "### " ++ tag) ∉ toUnits content)
    (hpos : ∀ a b, splitBefore (cs "## History\n") (removeExistingSection content tag)
        = some (a, b) → a = [] ∨ a.getLast? = some '\n')
    (hrun : insertHistoryRun content tag repo body = .ok d) :
    tagLineCount d tag = 1 := by
  have hcu := toUnits_removeExistingSection content tag
  have hno1 : (cs "### " ++ tag ++ cs "\n") ∉ toUnits (removeExistingSection content tag) := by
    rw [hcu]
    exact removeUnitsAux_no_tag _ _ le_rfl
  have hno2 : (cs "### " ++ tag) ∉ toUnits (removeExistingSection content tag) := by
    rw [hcu]
    exact fun hc => hbare (removeUnitsAux_mem hc)
  have hzero : ∀ u ∈ toUnits (removeExistingSection content tag), isTagLine tag u = false := by
    intro u hu
    have h1 : ¬ u = cs "### " ++ tag ++ cs "\n" := fun hc => hno1 (hc ▸ hu)
    have h2 : ¬ u = cs "### " ++ tag := fun hc => hno2 (hc ▸ hu)
    have h1b : ¬ u = cs "### " ++ (tag ++ cs "\n") := by
      rw [← List.append_assoc]
      exact h1
    simp [isTagLine, h1, h1b, h2]
  rw [insertHistoryRun, insertHistorySection] at hrun
  match hsb : splitBefore (cs "## History\n") (removeExistingSection content tag) with
  | none =>
    rw [hsb] at hrun
    exact absurd hrun (by simp)
  | some (a, b) =>
    rw [hsb] at hrun
    have hd : d = a ++ cs "## History\n" ++ cs "\n" ++ buildHistorySection tag repo body
        ++ b.drop 11 := (Except.ok.inj hrun).symm
    obtain ⟨hsplit, hpref⟩ := splitBefore_sound hsb
    obtain ⟨t, ht⟩ := List.isPrefixOf_iff_prefix.mp hpref
    have hdrop : b.drop 11 = t := by
      have hlen : (cs "## History\n").length = 11 := rfl
      rw [← ht, ← hlen]
      exact List.drop_left _ _
    have haopt := hpos a b hsb
    have hcu2 : toUnits (removeExistingSection content tag)
        = toUnits a ++ cs "## History\n" :: toUnits (b.drop 11) := by
      rcases haopt with rfl | ha'
      · rw [hsplit, List.nil_append, hdrop, ← ht, toUnits_marker]
        rfl
      · rw [hsplit, toUnits_append a b ha', hdrop, ← ht, toUnits_marker]
    have hA0 : ∀ u ∈ toUnits a, isTagLine tag u = false := fun u hu =>
      hzero u (by rw [hcu2]; exact List.mem_append_left _ hu)
    have hR0 : ∀ u ∈ toUnits (b.drop 11), isTagLine tag u = false := fun u hu =>
      hzero u (by rw [hcu2]; exact List.mem_append_right _ (List.mem_cons_of_mem _ hu))
    obtain ⟨tail, htail, hshape⟩ := buildHistorySection_shape tag repo body
    have hnA : '\n' ∉ cs "### " ++ tag := by
      intro hc
      rcases List.mem_append.mp hc with hc | hc
      · exact absurd hc (by decide)
      · exact htag hc
    have hnB : '\n' ∉ cs "[Release](" ++
        (cs "https://github.com/" ++ repo ++ cs "/releases/tag/" ++ tag) ++ cs ")" := by
      intro hc
      simp only [List.mem_append] at hc
      rcases hc with ((hc | (((hc | hc) | hc) | hc)) | hc)
      · exact absurd hc (by decide)
      · exact absurd hc (by decide)
      · exact hrepo hc
      · exact absurd hc (by decide)
      · exact htag hc
      · exact absurd hc (by decide)
    have hsecUnits : toUnits (buildHistorySection tag repo body)
        = ((cs "### " ++ tag) ++ ['\n']) :: ['\n'] ::
          ((cs "[Release](" ++ (cs "https://github.com/" ++ repo ++ cs "/releases/tag/" ++ tag)
            ++ cs ")") ++ ['\n']) :: ['\n'] :: toUnits tail := by
      rw [hshape, toUnits_chunk _ _ hnA, toUnits_newline_cons, toUnits_chunk _ _ hnB,
        toUnits_newline_cons]
    have hsecLast : (buildHistorySection tag repo body).getLast? = some '\n' := by
      rcases htail with rfl | rfl
      · rw [hshape]
        have hsh : (cs "### " ++ tag) ++ '\n' :: '\n' ::
            ((cs "[Release](" ++ (cs "https://github.com/" ++ repo ++ cs "/releases/tag/" ++ tag)
              ++ cs ")") ++ '\n' :: ([] : List Char).append ['\n'])
            = ((cs "### " ++ tag) ++ '\n' :: '\n' ::
                ((cs "[Release](" ++ (cs "https://github.com/" ++ repo ++ cs "/releases/tag/"
                  ++ tag) ++ cs ")") ++ ['\n'])) ++ ['\n'] := by simp
        rw [show ((cs "### " ++ tag) ++ '\n' :: '\n' ::
            ((cs "[Release](" ++ (cs "https://github.com/" ++ repo ++ cs "/releases/tag/" ++ tag)
              ++ cs ")") ++ '\n' :: '\n' :: ([] : List Char)))
            = ((cs "### " ++ tag) ++ '\n' :: '\n' ::
                ((cs "[Release](" ++ (cs "https://github.com/" ++ repo ++ cs "/releases/tag/"
                  ++ tag) ++ cs ")") ++ ['\n'])) ++ ['\n'] from by simp]
        exact List.getLast?_concat _
      · rw [hshape]
        rw [show ((cs "### " ++ tag) ++ '\n' :: '\n' ::
            ((cs "[Release](" ++ (cs "https://github.com/" ++ repo ++ cs "/releases/tag/" ++ tag)
              ++ cs ")") ++ '\n' :: '\n' :: (trimC body ++ cs "\n\n")))
            = ((cs "### " ++ tag) ++ '\n' :: '\n' ::
                ((cs "[Release](" ++ (cs "https://github.com/" ++ repo ++ cs "/releases/tag/"
                  ++ tag) ++ cs ")") ++ '\n' :: '\n' :: (trimC body ++ ['\n']))) ++ ['\n'] from by
              have hnn : (cs "\n\n" : List Char) = '\n' :: ['\n'] := rfl
              rw [hnn]
              simp]
        exact List.getLast?_concat _
    have htail0 : (toUnits tail).countP (isTagLine tag) = 0 := by
      rcases htail with rfl | rfl
      · rfl
      · exact List.countP_eq_zero.mpr (fun u hu => by simp [hbody u hu])
    have hdu : toUnits d = toUnits a ++ cs "## History\n" :: ['\n'] ::
        (toUnits (buildHistorySection tag repo body) ++ toUnits (b.drop 11)) := by
      rw [hd]
      have hre : a ++ cs "## History\n" ++ cs "\n" ++ buildHistorySection tag repo body
          ++ b.drop 11
          = a ++ (cs "## History\n" ++ ('\n' ::
              (buildHistorySection tag repo body ++ b.drop 11))) := by
        have hn1 : (cs "\n" : List Char) = ['\n'] := rfl
        rw [hn1]
        simp
      rw [hre]
      rcases haopt with rfl | ha'
      · rw [List.nil_append, toUnits_marker, toUnits_newline_cons,
          toUnits_append _ _ hsecLast]
        rfl
      · rw [toUnits_append a _ ha', toUnits_marker, toUnits_newline_cons,
          toUnits_append _ _ hsecLast]
    rw [tagLineCount, hdu, List.countP_append, List.countP_cons, List.countP_cons,
      List.countP_append, hsecUnits, List.countP_cons, List.countP_cons, List.countP_cons,
      List.countP_cons]
    have c1 : (toUnits a).countP (isTagLine tag) = 0 :=
      List.countP_eq_zero.mpr (fun u hu => by simp [hA0 u hu])
    have c2 : (toUnits (b.drop 11)).countP (isTagLine tag) = 0 :=
      List.countP_eq_zero.mpr (fun u hu => by simp [hR0 u hu])
    have hBline : isTagLine tag ((cs "[Release](" ++
        (cs "https://github.com/" ++ repo ++ cs "/releases/tag/" ++ tag) ++ cs ")")
          ++ ['\n']) = false := by
      have hsh : (cs "[Release](" ++
          (cs "https://github.com/" ++ repo ++ cs "/releases/tag/" ++ tag) ++ cs ")") ++ ['\n']
          = '[' :: ((cs "Release](" ++
              (cs "https://github.com/" ++ repo ++ cs "/releases/tag/" ++ tag) ++ cs ")")
                ++ ['\n']) := rfl
      rw [hsh]
      exact isTagLine_of_head _ _ _ (by decide)
    rw [c1, c2, htail0, isTagLine_marker, isTagLine_newline, isTagLine_tag_unit, hBline]
    simp

/-- Inputs of the C10 witness. -/
def contentW10 : List Char := cs "# readme\n## History\nintro\n### v1\nold\n\n### v2\nkeep\n"

/-- The document the witness run produces. -/
def dW10 : List Char :=
  match insertHistoryRun contentW10 (cs "v1") (cs "o/r") (cs "notes here") with
  | .ok d => d
  | .error _ => []

set_option maxRecDepth 40000 in
theorem claim10_witness : tagLineCount dW10 (cs "v1") = 1 := by
  refine claim10_amended contentW10 (cs "v1") (cs "o/r") (cs "notes here") dW10
    (by decide) (by decide) (by decide) (by decide) ?_ rfl
  intro a b h
  have hconc : splitBefore (cs "## History\n")
      (removeExistingSection contentW10 (cs "v1"))
      = some (cs "# readme\n", cs "## History\nintro\n### v2\nkeep\n") := by decide
  rw [hconc] at h
  obtain ⟨rfl, rfl⟩ := Prod.mk.injEq .. ▸ Option.some.inj h
  right
  decide

/-! ### C4: occurrence reasoning for the splice -/

/-- No occurrence of pat anywhere in s. -/
def NoOccStr (pat s : List Char) : Prop := ∀ t ∈ s.tails, ¬ pat <+: t

theorem noOccStr_iff {pat s : List Char} :
    NoOccStr pat s ↔ ∀ t, t <:+ s → ¬ pat <+: t := by
  constructor
  · exact fun h t ht => h t ((List.mem_tails t s).mpr ht)
  · exact fun h t ht => h t ((List.mem_tails t s).mp ht)

theorem prefLong {p u v : List Char} (h : p.length ≤ u.length) :
    p <+: u ++ v ↔ p <+: u := by
  constructor
  · intro hp
    exact List.prefix_of_prefix_length_le hp (List.prefix_append u v) h
  · intro hp
    exact hp.trans (List.prefix_append u v)

theorem prefShort {p t x : List Char} (h : p <+: t ++ x) (hle : t.length ≤ p.length) :
    t <+: p :=
  List.prefix_of_prefix_length_le (List.prefix_append t x) h hle

theorem charAt {p u w : List Char} {c : Char} (h : p <+: u ++ c :: w)
    (hlt : u.length < p.length) : ∃ r, p = u ++ c :: r := by
  rw [List.prefix_iff_eq_take] at h
  obtain ⟨j, hj⟩ : ∃ j, p.length = u.length + (j + 1) :=
    ⟨p.length - u.length - 1, by omega⟩
  rw [hj, List.take_append] at h
  exact ⟨w.take j, by rw [h, List.take_succ_cons]⟩

theorem suffix_split {t : List Char} : ∀ {x y : List Char}, t <:+ x ++ y →
    t <:+ y ∨ ∃ w, t = w ++ y ∧ w <:+ x := by
  intro x
  induction x with
  | nil => exact fun h => Or.inl (by simpa using h)
  | cons c x' ih =>
    intro y h
    rw [List.cons_append, List.suffix_cons_iff] at h
    rcases h with rfl | h
    · exact Or.inr ⟨c :: x', by simp, List.suffix_rfl⟩
    · rcases ih h with h1 | ⟨w, rfl, hw⟩
      · exact Or.inl h1
      · exact Or.inr ⟨w, rfl, hw.trans (List.suffix_cons c x')⟩

theorem splitBefore_eq_none {pat : List Char} :
    ∀ {s : List Char}, splitBefore pat s = none ↔ ∀ t, t <:+ s → ¬ pat <+: t
  | [] => by
    rw [splitBefore]
    constructor
    · intro h t ht hp
      rw [List.suffix_nil.mp ht] at hp
      rw [if_pos (List.isPrefixOf_iff_prefix.mpr hp)] at h
      exact absurd h (by simp)
    · intro h
      rw [if_neg (fun hc => h [] List.suffix_rfl (List.isPrefixOf_iff_prefix.mp hc))]
  | c :: rest => by
    rw [splitBefore]
    by_cases hp : pat.isPrefixOf (c :: rest) = true
    · rw [if_pos hp]
      constructor
      · intro h
        exact absurd h (by simp)
      · intro h
        exact absurd (h (c :: rest) List.suffix_rfl (List.isPrefixOf_iff_prefix.mp hp))
          (fun hc => hc)
    · rw [if_neg hp]
      constructor
      · intro h t ht hpt
        rcases List.suffix_cons_iff.mp ht with rfl | ht'
        · exact hp (List.isPrefixOf_iff_prefix.mpr hpt)
        · have hnone : splitBefore pat rest = none := by
            match hsr : splitBefore pat rest with
            | none => rfl
            | some pr => rw [hsr] at h; exact absurd h (by simp)
          exact (splitBefore_eq_none.mp hnone) t ht' hpt
      · intro h
        have hnone : splitBefore pat rest = none :=
          splitBefore_eq_none.mpr (fun t ht => h t (ht.trans (List.suffix_cons c rest)))
        rw [hnone]
        rfl

theorem splitBefore_first {pat : List Char} :
    ∀ {a : List Char} (b : List Char), pat <+: b →
      (∀ t, t ≠ [] → t <:+ a → ¬ pat <+: (t ++ b)) →
      splitBefore pat (a ++ b) = some (a, b)
  | [], b, hb, _ => by
    rw [List.nil_append]
    match b with
    | [] =>
      rw [splitBefore, if_pos (List.isPrefixOf_iff_prefix.mpr hb)]
    | c :: rest =>
      rw [splitBefore, if_pos (List.isPrefixOf_iff_prefix.mpr hb)]
  | c :: a', b, hb, hno => by
    rw [List.cons_append, splitBefore,
      if_neg (fun hc => hno (c :: a') (by simp) List.suffix_rfl
        (by rw [List.cons_append]; exact List.isPrefixOf_iff_prefix.mp hc)),
      splitBefore_first b hb
        (fun t ht hta => hno t ht (hta.trans (List.suffix_cons c a')))]
    rfl

theorem splitBefore_complete {pat : List Char} :
    ∀ {s a b : List Char}, splitBefore pat s = some (a, b) →
      ∀ t, t ≠ [] → t <:+ a → ¬ pat <+: (t ++ b)
  | [], a, b, h => by
    rw [splitBefore] at h
    by_cases hp : pat.isPrefixOf ([] : List Char) = true
    · rw [if_pos hp] at h
      obtain ⟨rfl, rfl⟩ := Prod.mk.injEq .. ▸ Option.some.inj h
      intro t ht hta
      rw [List.suffix_nil.mp hta] at ht
      exact absurd rfl ht
    · rw [if_neg hp] at h
      exact absurd h (by simp)
  | c :: rest, a, b, h => by
    rw [splitBefore] at h
    by_cases hp : pat.isPrefixOf (c :: rest) = true
    · rw [if_pos hp] at h
      obtain ⟨rfl, rfl⟩ := Prod.mk.injEq .. ▸ Option.some.inj h
      intro t ht hta
      rw [List.suffix_nil.mp hta] at ht
      exact absurd rfl ht
    · rw [if_neg hp] at h
      match hsr : splitBefore pat rest with
      | none => rw [hsr] at h; exact absurd h (by simp)
      | some (a1, b1) =>
        rw [hsr] at h
        obtain ⟨rfl, rfl⟩ := Prod.mk.injEq .. ▸ Option.some.inj h
        intro t ht hta
        rcases List.suffix_cons_iff.mp hta with rfl | hta'
        · have hs := (splitBefore_sound hsr).1
          rw [List.cons_append, ← hs]
          exact fun hc => hp (List.isPrefixOf_iff_prefix.mpr hc)
        · exact splitBefore_complete hsr t ht hta'

theorem suffix_getLast {t s : List Char} (ht : t <:+ s) (hne : t ≠ []) :
    t.getLast? = s.getLast? := by
  obtain ⟨p, rfl⟩ := ht
  rw [List.getLast?_append]
  match htl : t.getLast? with
  | none => exact absurd (List.getLast?_eq_none_iff.mp htl) hne
  | some v => rfl

theorem mem_of_getLast? {t : List Char} {c : Char} (h : t.getLast? = some c) : c ∈ t := by
  obtain ⟨ys, rfl⟩ := List.getLast?_eq_some_iff.mp h
  simp

/-- Occurrences cannot start strictly inside a newline-terminated block that
contains none, when the pattern has no newline. -/
theorem noOccBefore_of_newline {pat a b : List Char} (hnl : '\n' ∉ pat)
    (hna : NoOccStr pat a) (hlast : a.getLast? = some '\n') :
    ∀ t, t ≠ [] → t <:+ a → ¬ pat <+: (t ++ b) := by
  intro t htne hta hp
  by_cases hlen : pat.length ≤ t.length
  · exact (noOccStr_iff.mp hna) t hta ((prefLong hlen).mp hp)
  · have htp : t <+: pat := prefShort hp (by omega)
    have : '\n' ∈ t := mem_of_getLast? (by rw [suffix_getLast hta htne, hlast])
    exact hnl (htp.subset this)

/-- Concatenation along a separating newline preserves absence of a
newline-free pattern. -/
theorem joinNoOcc {pat u v : List Char} (hnl : '\n' ∉ pat)
    (hu : NoOccStr pat u) (hv : NoOccStr pat v) : NoOccStr pat (u ++ '\n' :: v) := by
  rw [noOccStr_iff] at hu hv ⊢
  intro t ht hp
  rcases suffix_split ht with ht1 | ⟨w, rfl, hw⟩
  · rcases List.suffix_cons_iff.mp ht1 with rfl | ht2
    · match pat, hp with
      | [], _ => exact hv [] List.nil_suffix List.nil_prefix
      | c :: p', hp => exact hnl (by rw [(List.cons_prefix_cons.mp hp).1]; simp)
    · exact hv t ht2 hp
  · by_cases hwne : w = []
    · subst hwne
      rw [List.nil_append] at hp
      match pat, hp with
      | [], _ => exact hv [] List.nil_suffix List.nil_prefix
      | c :: p', hp => exact hnl (by rw [(List.cons_prefix_cons.mp hp).1]; simp)
    · by_cases hlen : pat.length ≤ w.length
      · exact hu w hw ((prefLong hlen).mp hp)
      · obtain ⟨r, hr⟩ := charAt hp (by omega)
        exact hnl (by rw [hr]; simp)

theorem noOccStr_suffix {pat s t : List Char} (h : NoOccStr pat s) (ht : t <:+ s) :
    NoOccStr pat t := by
  rw [noOccStr_iff] at h ⊢
  exact fun w hw => h w (hw.trans ht)

theorem noOccStr_nil {pat : List Char} (h : pat ≠ []) : NoOccStr pat ([] : List Char) := by
  intro t ht hp
  rw [List.mem_tails] at ht
  rw [List.suffix_nil.mp ht] at hp
  exact h (List.prefix_nil.mp hp)

/-- The whole spliced Packages block is free of a newline-free pattern that
occurs neither in the header literal, the catalog text, nor the tail. -/
theorem noOcc_block {pat md z : List Char} (hne : pat ≠ []) (hnl : '\n' ∉ pat)
    (hhdr : NoOccStr pat (cs "## Packages")) (hmd : NoOccStr pat md)
    (hz : NoOccStr pat z) :
    NoOccStr pat (cs "## Packages" ++ '\n' :: '\n' :: (md ++ '\n' :: '\n' :: z)) := by
  have h0 : NoOccStr pat ([] : List Char) := noOccStr_nil hne
  have h1 : NoOccStr pat ('\n' :: z) := by simpa using joinNoOcc hnl h0 hz
  have h2 : NoOccStr pat (md ++ '\n' :: '\n' :: z) := by
    have := joinNoOcc hnl hmd h1
    simpa using this
  have h3 : NoOccStr pat ('\n' :: (md ++ '\n' :: '\n' :: z)) := by
    simpa using joinNoOcc hnl h0 h2
  simpa using joinNoOcc hnl hhdr h3

/-- The text between the Packages header and the tail contains no occurrence of
the next-section pattern, when the catalog neither contains it nor begins
with a section heading. -/
theorem noOcc_nl_a {md : List Char} (hmdnl : NoOccStr (cs "\n## ") md)
    (hhd : ¬ (cs "## ") <+: md) :
    NoOccStr (cs "\n## ") ('\n' :: '\n' :: (md ++ ['\n', '\n'])) := by
  rw [noOccStr_iff]
  intro t ht hp
  rcases List.suffix_cons_iff.mp ht with rfl | ht
  · have hp1 : cs "## " <+: '\n' :: (md ++ ['\n', '\n']) := (List.cons_prefix_cons.mp hp).2
    exact absurd (List.cons_prefix_cons.mp hp1).1 (by decide)
  rcases List.suffix_cons_iff.mp ht with rfl | ht
  · have hp1 : cs "## " <+: md ++ ['\n', '\n'] := (List.cons_prefix_cons.mp hp).2
    by_cases hlen : (cs "## ").length ≤ md.length
    · exact hhd ((prefLong hlen).mp hp1)
    · have hp2 : cs "## " <+: md ++ '\n' :: ['\n'] := hp1
      obtain ⟨r, hr⟩ := charAt hp2 (by
        have h3 : (cs "## ").length = 3 := rfl
        omega)
      have : '\n' ∈ cs "## " := by rw [hr]; simp
      exact absurd this (by decide)
  rcases suffix_split ht with ht1 | ⟨w, rfl, hw⟩
  · have hlt : t.length ≤ 2 := by simpa using ht1.length_le
    have hlp : (cs "\n## ").length ≤ t.length := hp.length_le
    have h4 : (cs "\n## ").length = 4 := rfl
    omega
  · by_cases hlen : (cs "\n## ").length ≤ w.length
    · exact (noOccStr_iff.mp hmdnl) w hw ((prefLong hlen).mp hp)
    · have h4 : (cs "\n## ").length = 4 := rfl
      have hp2 : cs "\n## " <+: w ++ '\n' :: ['\n'] := hp
      obtain ⟨r, hr⟩ := charAt hp2 (by omega)
      have hd : (cs "\n## ").drop w.length = '\n' :: r := by
        rw [hr]
        exact List.drop_left w _
      have hk : w.length = 0 ∨ w.length = 1 ∨ w.length = 2 ∨ w.length = 3 := by omega
      rcases hk with hk | hk | hk | hk
      · rw [List.length_eq_zero.mp hk] at hp
        have hlp : (cs "\n## ").length ≤ (['\n', '\n'] : List Char).length := by
          simpa using hp.length_le
        rw [h4] at hlp
        exact absurd hlp (by decide)
      · rw [hk] at hd
        have he : (cs "\n## ").drop 1 = '#' :: '#' :: ' ' :: [] := rfl
        rw [he] at hd
        injection hd with hd1 _
        exact absurd hd1 (by decide)
      · rw [hk] at hd
        have he : (cs "\n## ").drop 2 = '#' :: ' ' :: [] := rfl
        rw [he] at hd
        injection hd with hd1 _
        exact absurd hd1 (by decide)
      · rw [hk] at hd
        have he : (cs "\n## ").drop 3 = ' ' :: [] := rfl
        rw [he] at hd
        injection hd with hd1 _
        exact absurd hd1 (by decide)

/-- No occurrence of the next-section pattern can start inside the spliced
block ahead of the tail. -/
theorem noOccBefore_nl {md b : List Char} (hmdnl : NoOccStr (cs "\n## ") md)
    (hhd : ¬ (cs "## ") <+: md) (hb : cs "\n## " <+: b) :
    ∀ t, t ≠ [] → t <:+ ('\n' :: '\n' :: (md ++ ['\n', '\n'])) →
      ¬ cs "\n## " <+: (t ++ b) := by
  intro t htne ht hp
  have h4 : (cs "\n## ").length = 4 := rfl
  by_cases hlen : (cs "\n## ").length ≤ t.length
  · exact (noOccStr_iff.mp (noOcc_nl_a hmdnl hhd)) t ht ((prefLong hlen).mp hp)
  · have htp : t <+: cs "\n## " := prefShort hp (by omega)
    have hlast : t.getLast? = some '\n' := by
      rw [suffix_getLast ht htne]
      have hsp : ('\n' :: '\n' :: (md ++ ['\n', '\n']))
          = ('\n' :: '\n' :: (md ++ ['\n'])) ++ ['\n'] := by simp
      rw [hsp]
      exact List.getLast?_concat _
    have htake : t = (cs "\n## ").take t.length := List.prefix_iff_eq_take.mp htp
    have hk : t.length = 0 ∨ t.length = 1 ∨ t.length = 2 ∨ t.length = 3 := by omega
    rcases hk with hk | hk | hk | hk
    · exact htne (List.length_eq_zero.mp hk)
    · rw [hk] at htake
      have he : (cs "\n## ").take 1 = ['\n'] := rfl
      rw [he] at htake
      subst htake
      obtain ⟨b2, rfl⟩ := hb
      have hp2 : cs "## " <+: cs "\n## " ++ b2 := (List.cons_prefix_cons.mp hp).2
      have hp3 : cs "## " <+: '\n' :: (cs "## " ++ b2) := hp2
      exact absurd (List.cons_prefix_cons.mp hp3).1 (by decide)
    · rw [hk] at htake
      have he : (cs "\n## ").take 2 = ['\n', '#'] := rfl
      rw [he] at htake
      rw [htake] at hlast
      simp at hlast
    · rw [hk] at htake
      have he : (cs "\n## ").take 3 = ['\n', '#', '#'] := rfl
      rw [he] at htake
      rw [htake] at hlast
      simp at hlast

/-- The header literal contains no occurrence of the History pattern. -/
theorem noOcc_hist_pkg : NoOccStr (cs "## History") (cs "## Packages") := by
  show ∀ t ∈ (cs "## Packages").tails, ¬ cs "## History" <+: t
  decide

/-- Splicing the same catalog text again into an already spliced document
reproduces it byte for byte, when the catalog text contains neither the
History pattern nor a line starting a new section. -/
theorem updateAgain (doc doc1 md : List Char)
    (hup : updateReadmePackagesSection doc md = .ok doc1)
    (hnoH : NoOccStr (cs "## History") md)
    (hnoNL : NoOccStr (cs "\n## ") md)
    (hhd : ¬ (cs "## ") <+: md) :
    updateReadmePackagesSection doc1 md = .ok doc1 := by
  rw [updateReadmePackagesSection] at hup
  match hsb : splitBefore (cs "## Packages") doc with
  | none =>
    rw [hsb] at hup
    exact absurd hup (by simp)
  | some (pre, rest) =>
    rw [hsb] at hup
    simp only [] at hup
    obtain ⟨hdoc, hprefB⟩ := splitBefore_sound hsb
    have hNB0 := splitBefore_complete hsb
    obtain ⟨rest', hrest'⟩ := List.isPrefixOf_iff_prefix.mp hprefB
    have hfirst : ∀ z : List Char,
        splitBefore (cs "## Packages")
          (pre ++ (cs "## Packages" ++ ('\n' :: '\n' :: (md ++ '\n' :: '\n' :: z))))
          = some (pre, cs "## Packages" ++ ('\n' :: '\n' :: (md ++ '\n' :: '\n' :: z))) := by
      intro z
      apply splitBefore_first
      · exact List.prefix_append _ _
      · intro t htne hta hp
        refine hNB0 t htne hta ?_
        rw [← hrest']
        have hplen : (cs "## Packages").length ≤ (t ++ cs "## Packages").length := by simp
        have hassoc : t ++ (cs "## Packages" ++ ('\n' :: '\n' :: (md ++ '\n' :: '\n' :: z)))
            = (t ++ cs "## Packages") ++ ('\n' :: '\n' :: (md ++ '\n' :: '\n' :: z)) := by
          simp
        rw [hassoc] at hp
        have hp1 : cs "## Packages" <+: t ++ cs "## Packages" := (prefLong hplen).mp hp
        have hassoc2 : t ++ (cs "## Packages" ++ rest')
            = (t ++ cs "## Packages") ++ rest' := by simp
        rw [hassoc2]
        exact (prefLong hplen).mpr hp1
    have hshape : ∀ z : List Char, pre ++ cs "## Packages\n\n" ++ md ++ cs "\n\n" ++ z
        = pre ++ (cs "## Packages" ++ ('\n' :: '\n' :: (md ++ '\n' :: '\n' :: z))) := by
      intro z
      have hcs1 : (cs "## Packages\n\n" : List Char) = cs "## Packages" ++ ['\n', '\n'] := rfl
      have hcs2 : (cs "\n\n" : List Char) = ['\n', '\n'] := rfl
      rw [hcs1, hcs2]
      simp
    have hdrop : ∀ z : List Char,
        (cs "## Packages" ++ ('\n' :: '\n' :: (md ++ '\n' :: '\n' :: z))).drop 11
          = '\n' :: '\n' :: (md ++ '\n' :: '\n' :: z) := by
      intro z
      have hlen11 : (11 : Nat) = (cs "## Packages").length := rfl
      rw [hlen11]
      exact List.drop_left _ _
    match hsbH : splitBefore (cs "## History") rest with
    | some (mid, tailH) =>
      rw [hsbH] at hup
      simp only [] at hup
      have hd1 : doc1 = pre ++ cs "## Packages\n\n" ++ md ++ cs "\n\n" ++ tailH :=
        (Except.ok.inj hup).symm
      obtain ⟨hrestEq, hprefH⟩ := splitBefore_sound hsbH
      have hsecond : splitBefore (cs "## History")
          (cs "## Packages" ++ ('\n' :: '\n' :: (md ++ '\n' :: '\n' :: tailH)))
          = some (cs "## Packages" ++ ('\n' :: '\n' :: (md ++ ['\n', '\n'])), tailH) := by
        have hassoc : cs "## Packages" ++ ('\n' :: '\n' :: (md ++ '\n' :: '\n' :: tailH))
            = (cs "## Packages" ++ ('\n' :: '\n' :: (md ++ ['\n', '\n']))) ++ tailH := by
          simp
        rw [hassoc]
        apply splitBefore_first
        · exact List.isPrefixOf_iff_prefix.mp hprefH
        · apply noOccBefore_of_newline (by decide)
          · exact noOcc_block (by decide) (by decide) noOcc_hist_pkg hnoH
              (noOccStr_nil (by decide))
          · have hsp : cs "## Packages" ++ ('\n' :: '\n' :: (md ++ ['\n', '\n']))
                = (cs "## Packages" ++ ('\n' :: '\n' :: (md ++ ['\n']))) ++ ['\n'] := by
              simp
            rw [hsp]
            exact List.getLast?_concat _
      rw [hd1, hshape tailH]
      simp only [updateReadmePackagesSection, hfirst tailH, hsecond]
      rw [← hshape tailH]
    | none =>
      rw [hsbH] at hup
      have hrest0 : NoOccStr (cs "## History") rest :=
        noOccStr_iff.mpr (splitBefore_eq_none.mp hsbH)
      match hsbN : splitBefore (cs "\n## ") (rest.drop 11) with
      | some (mid2, tail2) =>
        rw [hsbN] at hup
        simp only [] at hup
        have hd1 : doc1 = pre ++ cs "## Packages\n\n" ++ md ++ cs "\n\n" ++ tail2 :=
          (Except.ok.inj hup).symm
        obtain ⟨hrd, hprefN⟩ := splitBefore_sound hsbN
        have htail2suf : tail2 <:+ rest := by
          have h1 : tail2 <:+ rest.drop 11 := ⟨mid2, hrd.symm⟩
          exact h1.trans (List.drop_suffix 11 rest)
        have htail2H : NoOccStr (cs "## History") tail2 := noOccStr_suffix hrest0 htail2suf
        have hsecond : splitBefore (cs "## History")
            (cs "## Packages" ++ ('\n' :: '\n' :: (md ++ '\n' :: '\n' :: tail2))) = none := by
          apply splitBefore_eq_none.mpr
          exact noOccStr_iff.mp
            (noOcc_block (by decide) (by decide) noOcc_hist_pkg hnoH htail2H)
        have hthird : splitBefore (cs "\n## ")
            ('\n' :: '\n' :: (md ++ '\n' :: '\n' :: tail2))
            = some ('\n' :: '\n' :: (md ++ ['\n', '\n']), tail2) := by
          have hassoc : '\n' :: '\n' :: (md ++ '\n' :: '\n' :: tail2)
              = ('\n' :: '\n' :: (md ++ ['\n', '\n'])) ++ tail2 := by simp
          rw [hassoc]
          apply splitBefore_first
          · exact List.isPrefixOf_iff_prefix.mp hprefN
          · exact noOccBefore_nl hnoNL hhd (List.isPrefixOf_iff_prefix.mp hprefN)
        rw [hd1, hshape tail2]
        simp only [updateReadmePackagesSection, hfirst tail2, hsecond, hdrop tail2, hthird]
        rw [← hshape tail2]
      | none =>
        rw [hsbN] at hup
        simp only [] at hup
        have hd1 : doc1 = pre ++ cs "## Packages\n\n" ++ md ++ cs "\n\n" ++ ([] : List Char) :=
          (Except.ok.inj hup).symm
        have hsecond : splitBefore (cs "## History")
            (cs "## Packages" ++ ('\n' :: '\n' :: (md ++ '\n' :: '\n' :: ([] : List Char))))
            = none := by
          apply splitBefore_eq_none.mpr
          exact noOccStr_iff.mp
            (noOcc_block (by decide) (by decide) noOcc_hist_pkg hnoH (noOccStr_nil (by decide)))
        have hthird : splitBefore (cs "\n## ")
            ('\n' :: '\n' :: (md ++ '\n' :: '\n' :: ([] : List Char))) = none := by
          apply splitBefore_eq_none.mpr
          exact noOccStr_iff.mp (noOcc_nl_a hnoNL hhd)
        rw [hd1, hshape []]
        simp only [updateReadmePackagesSection, hfirst [], hsecond, hdrop [], hthird]
        rw [← hshape []]

/-- One full run of main in update mode: the document written back, if any. -/
def spliceOnce (d : List Char) : Option (List Char) := (runMain d true).written

/-- A document whose history table holds a cell containing the History marker. -/
def docC4 : List Char := cs "## Packages\n\nold\n\n## History\n\n### v1\n\n[Release](http://x/tag/v1)\n\n| Flash-Attention | Python | PyTorch | CUDA |\n| --- | --- | --- | --- |\n| ## History | 3.10 | 2.4 | 12.4 |\n"

set_option maxRecDepth 40000 in
/-- C4 counterexample: a document whose table data contains the string
"## History" is spliced successfully, but running the pipeline again on the
spliced document produces a different byte sequence: re-splicing is not
idempotent in general. -/
theorem claim4_counterexample :
    (spliceOnce docC4).isSome = true ∧
    (spliceOnce docC4).bind spliceOnce ≠ spliceOnce docC4 :=
  ⟨by decide, by decide⟩

/-- C4 (amended): if one update-mode run of main on a document writes back a
spliced document, the spliced document parses to the same catalog text, and the
catalog text contains no occurrence of "## History", no occurrence of a line
break followed by "## ", and does not itself start with "## ", then a second
update-mode run on the spliced document writes back the identical byte
sequence. -/
theorem claim4_amended (doc doc1 md : List Char)
    (hmd : pipelineMd doc = some md)
    (hup : updateReadmePackagesSection doc md = .ok doc1)
    (hmd1 : pipelineMd doc1 = some md)
    (hnoH : NoOccStr (cs "## History") md)
    (hnoNL : NoOccStr (cs "\n## ") md)
    (hhd : ¬ (cs "## ") <+: md) :
    spliceOnce doc = some doc1 ∧ spliceOnce doc1 = some doc1 := by
  have h2 := updateAgain doc doc1 md hup hnoH hnoNL hhd
  constructor
  · simp only [spliceOnce, runMain, hmd, if_true, hup]
  · simp only [spliceOnce, runMain, hmd1, if_true, h2]

/-- A well-behaved document for the idempotence witness. -/
def docW4 : List Char := cs "# T\n\n## Packages\n\nold\n\n## History\n\n### v0.0.2\n\n[Release](https://github.com/u/r/releases/tag/v0.0.2)\n\n#### Windows\n\n| Flash-Attention | Python | PyTorch | CUDA |\n| --- | --- | --- | --- |\n| 2.7.4, 2.7.3 | 3.11 | 2.6 | 124 |\n"

/-- The catalog text rendered from that document. -/
def mdW4 : List Char := (pipelineMd docW4).getD []

/-- The document after the first splice. -/
def docW4b : List Char := (updateReadmePackagesSection docW4 mdW4).toOption.getD []

set_option maxRecDepth 40000 in
theorem claim4_witness :
    pipelineMd docW4 = some mdW4 ∧
    updateReadmePackagesSection docW4 mdW4 = .ok docW4b ∧
    pipelineMd docW4b = some mdW4 ∧
    NoOccStr (cs "## History") mdW4 ∧
    NoOccStr (cs "\n## ") mdW4 ∧
    ¬ (cs "## ") <+: mdW4 ∧
    spliceOnce docW4 = some docW4b ∧ spliceOnce docW4b = some docW4b := by
  have hmd : pipelineMd docW4 = some mdW4 := by decide
  have hup : updateReadmePackagesSection docW4 mdW4 = .ok docW4b := rfl
  have hmd1 : pipelineMd docW4b = some mdW4 := by decide
  have hnoH : NoOccStr (cs "## History") mdW4 := by
    show ∀ t ∈ mdW4.tails, ¬ cs "## History" <+: t
    decide
  have hnoNL : NoOccStr (cs "\n## ") mdW4 := by
    show ∀ t ∈ mdW4.tails, ¬ cs "\n## " <+: t
    decide
  have hhd : ¬ (cs "## ") <+: mdW4 := by decide
  have h := claim4_amended docW4 docW4b mdW4 hmd hup hmd1 hnoH hnoNL hhd
  exact ⟨hmd, hup, hmd1, hnoH, hnoNL, hhd, h.1, h.2⟩

end FAW
